import Mathlib

/-!
Verification of the Isolation game-playing agent (game_agent.py).

The agent's search code is embedded shallowly:

* Scores are extended rationals: the Python code manipulates `float` values
  that are either finite heuristic values or `float("inf")` / `float("-inf")`.
  We model them as `WithBot (WithTop ℚ)`, so `⊥` is `-inf`, `⊤` is `+inf` and
  `Score.fin q` is a finite value.
* The external `isolation.Board` collaborator is abstracted: for the search
  functions a game state is a finitely-branching tree node carrying
  `game.utility(self)` (the terminal utility for the fixed evaluating player),
  `self.score(game, self)` (the configured evaluator's value for the fixed
  player), and the ordered association of each legal move with its
  `game.forecast_move(move)` successor state.  Every play of Isolation is
  finite (the board fills up), so finite trees are faithful.
* The `time_left` callable is modelled as the sequence of values it returns:
  a function `ℕ → ℚ` from the index of the query to the reported remaining
  time; a query counter is threaded through the timed search functions, and
  the `Timeout` exception becomes the `Except Timeout` monad.
-/

/-- Extended rational scores: `⊥` is `float("-inf")`, `⊤` is `float("inf")`. -/
abbrev Score := WithBot (WithTop ℚ)

/-- A finite score, i.e. an ordinary `float` value in the Python code. -/
def Score.fin (q : ℚ) : Score := ((q : WithTop ℚ) : WithBot (WithTop ℚ))

/-- Negation of a score, used to state the evaluator sign law. -/
def Score.neg (s : Score) : Score :=
  WithBot.recBotCoe (⊤ : Score)
    (fun t => WithTop.recTopCoe (⊥ : Score) (fun q => Score.fin (-q)) t) s

/-- Board coordinates: a Python `(int, int)` tuple. -/
abbrev Move := Int × Int

/-- Abstract game state as seen by the search: `util` is `game.utility(self)`,
`score` is `self.score(game, self)`, and `succ` pairs each legal move of the
player to move with its `game.forecast_move(move)` successor state, in the
order the board enumerates them. -/
inductive GameState where
  | node (util : Score) (score : Score) (succ : List (Move × GameState))

/-- The terminal utility `game.utility(self)` of a state. -/
def GameState.utility : GameState → Score
  | .node u _ _ => u

/-- The evaluator's value `self.score(game, self)` of a state. -/
def GameState.score : GameState → Score
  | .node _ h _ => h

/-- The ordered legal moves, each paired with its forecast successor state. -/
def GameState.succ : GameState → List (Move × GameState)
  | .node _ _ s => s

/-- The board's `game.get_legal_moves()` for the player to move. -/
def GameState.get_legal_moves (g : GameState) : List Move := g.succ.map Prod.fst

/-- The maximizing branch of the minimax move loop: starting from
`best = (float("-inf"), None)`, replace the best pair exactly when the child's
score is strictly greater (`if score > best_score`). -/
def mmMaxLoop (f : GameState → Score) :
    List (Move × GameState) → Score × Option Move → Score × Option Move
  | [], best => best
  | p :: rest, best =>
      let sc := f p.2
      mmMaxLoop f rest (if best.1 < sc then (sc, some p.1) else best)

/-- The minimizing branch of the minimax move loop: starting from
`best = (float("inf"), None)`, replace the best pair exactly when the child's
score is strictly smaller (`if score < best_score`). -/
def mmMinLoop (f : GameState → Score) :
    List (Move × GameState) → Score × Option Move → Score × Option Move
  | [], best => best
  | p :: rest, best =>
      let sc := f p.2
      mmMinLoop f rest (if sc < best.1 then (sc, some p.1) else best)

/-- `CustomPlayer.minimax(game, depth, maximizing_player)` without the timer
(the timed variant `minimaxT` adds the entry time check).  Terminal test
first, then the `depth == 0` cutoff, then the move loop. -/
def minimax : ℕ → GameState → Bool → Score × Option Move
  | depth, g, maximizing_player =>
    if g.get_legal_moves.isEmpty then (g.utility, some (-1, -1))
    else
      match depth with
      | 0 => (g.score, some (-1, -1))
      | d + 1 =>
        if maximizing_player then
          mmMaxLoop (fun s => (minimax d s false).1) g.succ (⊥, none)
        else
          mmMinLoop (fun s => (minimax d s true).1) g.succ (⊤, none)

/-- The maximizing branch of the alphabeta move loop: update the best pair on
strict improvement, return early when `best_score >= beta`, otherwise tighten
`alpha = max(alpha, best_score)` before the next move. -/
def abMaxLoop (f : Score → Score → GameState → Score) (beta : Score) :
    List (Move × GameState) → Score × Option Move → Score → Score × Option Move
  | [], best, _ => best
  | p :: rest, best, alpha =>
      let sc := f alpha beta p.2
      let best1 := if best.1 < sc then (sc, some p.1) else best
      if beta ≤ best1.1 then best1
      else abMaxLoop f beta rest best1 (max alpha best1.1)

/-- The minimizing branch of the alphabeta move loop: update the best pair on
strict improvement, return early when `best_score <= alpha`, otherwise tighten
`beta = min(beta, best_score)` before the next move. -/
def abMinLoop (f : Score → Score → GameState → Score) (alpha : Score) :
    List (Move × GameState) → Score × Option Move → Score → Score × Option Move
  | [], best, _ => best
  | p :: rest, best, beta =>
      let sc := f alpha beta p.2
      let best1 := if sc < best.1 then (sc, some p.1) else best
      if best1.1 ≤ alpha then best1
      else abMinLoop f alpha rest best1 (min beta best1.1)

/-- `CustomPlayer.alphabeta(game, depth, alpha, beta, maximizing_player)`
without the timer.  Same terminal/cutoff structure as `minimax`, with the
pruning loops of the source. -/
def alphabeta : ℕ → GameState → Score → Score → Bool → Score × Option Move
  | depth, g, alpha, beta, maximizing_player =>
    if g.get_legal_moves.isEmpty then (g.utility, some (-1, -1))
    else
      match depth with
      | 0 => (g.score, some (-1, -1))
      | d + 1 =>
        if maximizing_player then
          abMaxLoop (fun a b s => (alphabeta d s a b false).1) beta g.succ (⊥, none) alpha
        else
          abMinLoop (fun a b s => (alphabeta d s a b true).1) alpha g.succ (⊤, none) beta

/-- The `Timeout` exception class of the source. -/
inductive Timeout where
  | mk
deriving DecidableEq

/-- Timed maximizing minimax loop: the child search call may raise, in which
case the exception propagates out of the whole loop uncaught. -/
def mmMaxLoopT (f : ℕ → GameState → Except Timeout (Score × ℕ)) :
    List (Move × GameState) → Score × Option Move → ℕ →
      Except Timeout ((Score × Option Move) × ℕ)
  | [], best, t => .ok (best, t)
  | p :: rest, best, t =>
      match f t p.2 with
      | .error e => .error e
      | .ok (sc, t1) => mmMaxLoopT f rest (if best.1 < sc then (sc, some p.1) else best) t1

/-- Timed minimizing minimax loop. -/
def mmMinLoopT (f : ℕ → GameState → Except Timeout (Score × ℕ)) :
    List (Move × GameState) → Score × Option Move → ℕ →
      Except Timeout ((Score × Option Move) × ℕ)
  | [], best, t => .ok (best, t)
  | p :: rest, best, t =>
      match f t p.2 with
      | .error e => .error e
      | .ok (sc, t1) => mmMinLoopT f rest (if sc < best.1 then (sc, some p.1) else best) t1

/-- `CustomPlayer.minimax` with the timer: `clock t` is the value returned by
the `t`-th call of `self.time_left()`, `thr` is `self.TIMER_THRESHOLD`.  Each
recursive call checks `self.time_left() < self.TIMER_THRESHOLD` at entry and
raises `Timeout()` exactly when it holds; the query counter is threaded
through the search. -/
def minimaxT (clock : ℕ → ℚ) (thr : ℚ) :
    ℕ → GameState → Bool → ℕ → Except Timeout ((Score × Option Move) × ℕ)
  | depth, g, maximizing_player, t =>
    if clock t < thr then .error .mk
    else if g.get_legal_moves.isEmpty then .ok ((g.utility, some (-1, -1)), t + 1)
    else
      match depth with
      | 0 => .ok ((g.score, some (-1, -1)), t + 1)
      | d + 1 =>
        if maximizing_player then
          mmMaxLoopT (fun t1 s => (minimaxT clock thr d s false t1).map (fun r => (r.1.1, r.2)))
            g.succ (⊥, none) (t + 1)
        else
          mmMinLoopT (fun t1 s => (minimaxT clock thr d s true t1).map (fun r => (r.1.1, r.2)))
            g.succ (⊤, none) (t + 1)

/-- Timed maximizing alphabeta loop. -/
def abMaxLoopT (f : Score → Score → ℕ → GameState → Except Timeout (Score × ℕ)) (beta : Score) :
    List (Move × GameState) → Score × Option Move → Score → ℕ →
      Except Timeout ((Score × Option Move) × ℕ)
  | [], best, _, t => .ok (best, t)
  | p :: rest, best, alpha, t =>
      match f alpha beta t p.2 with
      | .error e => .error e
      | .ok (sc, t1) =>
          let best1 := if best.1 < sc then (sc, some p.1) else best
          if beta ≤ best1.1 then .ok (best1, t1)
          else abMaxLoopT f beta rest best1 (max alpha best1.1) t1

/-- Timed minimizing alphabeta loop. -/
def abMinLoopT (f : Score → Score → ℕ → GameState → Except Timeout (Score × ℕ)) (alpha : Score) :
    List (Move × GameState) → Score × Option Move → Score → ℕ →
      Except Timeout ((Score × Option Move) × ℕ)
  | [], best, _, t => .ok (best, t)
  | p :: rest, best, beta, t =>
      match f alpha beta t p.2 with
      | .error e => .error e
      | .ok (sc, t1) =>
          let best1 := if sc < best.1 then (sc, some p.1) else best
          if best1.1 ≤ alpha then .ok (best1, t1)
          else abMinLoopT f alpha rest best1 (min beta best1.1) t1

/-- `CustomPlayer.alphabeta` with the timer, like `minimaxT`. -/
def alphabetaT (clock : ℕ → ℚ) (thr : ℚ) :
    ℕ → GameState → Score → Score → Bool → ℕ → Except Timeout ((Score × Option Move) × ℕ)
  | depth, g, alpha, beta, maximizing_player, t =>
    if clock t < thr then .error .mk
    else if g.get_legal_moves.isEmpty then .ok ((g.utility, some (-1, -1)), t + 1)
    else
      match depth with
      | 0 => .ok ((g.score, some (-1, -1)), t + 1)
      | d + 1 =>
        if maximizing_player then
          abMaxLoopT
            (fun a b t1 s => (alphabetaT clock thr d s a b false t1).map (fun r => (r.1.1, r.2)))
            beta g.succ (⊥, none) alpha (t + 1)
        else
          abMinLoopT
            (fun a b t1 s => (alphabetaT clock thr d s a b true t1).map (fun r => (r.1.1, r.2)))
            alpha g.succ (⊤, none) beta (t + 1)

/-- Number of node entries (equivalently, `time_left()` queries) of a
`minimax` call: one for this node plus one count per recursive child call. -/
def mmCount : ℕ → GameState → Bool → ℕ
  | depth, g, maximizing_player =>
    if g.get_legal_moves.isEmpty then 1
    else
      match depth with
      | 0 => 1
      | d + 1 =>
        1 + (g.succ.map (fun p => mmCount d p.2 (if maximizing_player then false else true))).sum

/-- Node-entry count of the maximizing alphabeta loop: only the moves examined
before an early `best_score >= beta` return contribute. -/
def abMaxLoopCnt (f : Score → Score → GameState → Score)
    (fc : Score → Score → GameState → ℕ) (beta : Score) :
    List (Move × GameState) → Score × Option Move → Score → ℕ
  | [], _, _ => 0
  | p :: rest, best, alpha =>
      let sc := f alpha beta p.2
      let best1 := if best.1 < sc then (sc, some p.1) else best
      fc alpha beta p.2 +
        (if beta ≤ best1.1 then 0 else abMaxLoopCnt f fc beta rest best1 (max alpha best1.1))

/-- Node-entry count of the minimizing alphabeta loop. -/
def abMinLoopCnt (f : Score → Score → GameState → Score)
    (fc : Score → Score → GameState → ℕ) (alpha : Score) :
    List (Move × GameState) → Score × Option Move → Score → ℕ
  | [], _, _ => 0
  | p :: rest, best, beta =>
      let sc := f alpha beta p.2
      let best1 := if sc < best.1 then (sc, some p.1) else best
      fc alpha beta p.2 +
        (if best1.1 ≤ alpha then 0 else abMinLoopCnt f fc alpha rest best1 (min beta best1.1))

/-- Number of node entries of an `alphabeta` call. -/
def abCount : ℕ → GameState → Score → Score → Bool → ℕ
  | depth, g, alpha, beta, maximizing_player =>
    if g.get_legal_moves.isEmpty then 1
    else
      match depth with
      | 0 => 1
      | d + 1 =>
        if maximizing_player then
          1 + abMaxLoopCnt (fun a b s => (alphabeta d s a b false).1)
                (fun a b s => abCount d s a b false) beta g.succ (⊥, none) alpha
        else
          1 + abMinLoopCnt (fun a b s => (alphabeta d s a b true).1)
                (fun a b s => abCount d s a b true) alpha g.succ (⊤, none) beta

/-- CPython's `sys.maxsize` on a 64-bit platform; `range(sys.maxsize)` in
`get_move` iterates depths `0, 1, ..., sys.maxsize - 1`. -/
def sysMaxsize : ℕ := 2 ^ 63 - 1

/-- The iterative-deepening loop of `get_move`: run the timed search at the
current depth; a completed call replaces `result` with the returned move and
the loop continues at `depth + 1`; a `Timeout` escaping the call ends the
loop with the remembered `result` (the `except Timeout: pass` of the source).
`fuel` is the number of remaining `range(sys.maxsize)` iterations. -/
def idLoop (searchT : ℕ → ℕ → Except Timeout ((Score × Option Move) × ℕ)) :
    ℕ → ℕ → Option Move → ℕ → Option Move
  | 0, _, result, _ => result
  | fuel + 1, depth, result, t =>
      match searchT t depth with
      | .error _ => result
      | .ok (r, t1) => idLoop searchT fuel (depth + 1) r.2 t1

/-- The configuration fields of `CustomPlayer.__init__` (the evaluator
`score_fn` is abstracted into `GameState.score`). -/
structure CustomPlayer where
  search_depth : ℕ
  iterative : Bool
  method : String
  TIMER_THRESHOLD : ℚ

/-- `CustomPlayer.get_move(game, legal_moves, time_left)`.  Returns the chosen
move, `some (-1, -1)` standing for the Python tuple `(-1, -1)` and `none` for
Python `None` (the initial value of `result`). -/
def get_move (p : CustomPlayer) (game : GameState) (legal_moves : List Move)
    (time_left : ℕ → ℚ) : Option Move :=
  if legal_moves.isEmpty then some (-1, -1)
  else if p.iterative then
    if p.method = "minimax" then
      idLoop (fun t d => minimaxT time_left p.TIMER_THRESHOLD d game true t) sysMaxsize 0 none 0
    else if p.method = "alphabeta" then
      idLoop (fun t d => alphabetaT time_left p.TIMER_THRESHOLD d game ⊥ ⊤ true t)
        sysMaxsize 0 none 0
    else none
  else
    if p.method = "minimax" then
      match minimaxT time_left p.TIMER_THRESHOLD p.search_depth game true 0 with
      | .error _ => none
      | .ok (r, _) => r.2
    else if p.method = "alphabeta" then
      match alphabetaT time_left p.TIMER_THRESHOLD p.search_depth game ⊥ ⊤ true 0 with
      | .error _ => none
      | .ok (r, _) => r.2
    else none

/-- The two player identities of a game. -/
inductive PlayerId where
  | one
  | two
deriving DecidableEq

/-- `game.get_opponent(player)`. -/
def PlayerId.get_opponent : PlayerId → PlayerId
  | .one => .two
  | .two => .one

/-- The `isolation.Board` interface as consumed by the evaluators: terminal
status queries, per-player legal moves, player locations and dimensions. -/
structure Board where
  height : Int
  width : Int
  is_winner : PlayerId → Bool
  is_loser : PlayerId → Bool
  get_legal_moves : PlayerId → List Move
  get_player_location : PlayerId → Int × Int

/-- `heuristic1(game, player)`: win/loss short-circuit, then the difference in
legal-move counts as a float. -/
def heuristic1 (game : Board) (player : PlayerId) : Score :=
  if game.is_winner player then ⊤
  else if game.is_loser player then ⊥
  else
    Score.fin (((game.get_legal_moves player).length : ℚ) -
      ((game.get_legal_moves player.get_opponent).length : ℚ))

/-- `heuristic3(game, player)`: win/loss short-circuit; mobility difference
when the move counts differ; otherwise the Manhattan-distance-to-center
tiebreak `(opponent_distance - player_distance) / 10`.  `int(game.height / 2)`
truncates toward zero, which for the nonnegative board dimensions equals the
integer division used here. -/
def heuristic3 (game : Board) (player : PlayerId) : Score :=
  if game.is_winner player then ⊤
  else if game.is_loser player then ⊥
  else
    let player_moves_left := (game.get_legal_moves player).length
    let opponent_moves_left := (game.get_legal_moves player.get_opponent).length
    if player_moves_left ≠ opponent_moves_left then
      Score.fin ((player_moves_left : ℚ) - (opponent_moves_left : ℚ))
    else
      let center_y_pos : Int := game.height / 2
      let center_x_pos : Int := game.width / 2
      let player_y_pos := (game.get_player_location player).1
      let player_x_pos := (game.get_player_location player).2
      let opponent_y_pos := (game.get_player_location player.get_opponent).1
      let opponent_x_pos := (game.get_player_location player.get_opponent).2
      let player_distance := |player_y_pos - center_y_pos| + |player_x_pos - center_x_pos|
      let opponent_distance := |opponent_y_pos - center_y_pos| + |opponent_x_pos - center_x_pos|
      Score.fin (((opponent_distance - player_distance : Int) : ℚ) / 10)

/-- `custom_score` delegates to `heuristic3`. -/
def custom_score (game : Board) (player : PlayerId) : Score := heuristic3 game player

deriving instance DecidableEq for Except

/-- The Knuth–Moore window contract relating the minimax value `v` of a node
to the score `r` returned by the alphabeta search of the same node with
window `(a, b)`: a fail-low result stays at or below `a`, a fail-high result
stays at or above `b`, and a value strictly inside the window is exact. -/
def KM (v r a b : Score) : Prop :=
  (v ≤ a → r ≤ a) ∧ (b ≤ v → b ≤ r) ∧ (a < v → v < b → r = v)

/-- Sample non-terminal state with a single move: utility 0, evaluator 5,
one successor whose evaluator value is 2. -/
def gA : GameState :=
  .node (Score.fin 0) (Score.fin 5) [((0, 0), .node (Score.fin 2) (Score.fin 2) [])]

/-- Sample terminal state (no legal moves) whose utility and evaluator value
differ, so the two cutoff branches are distinguishable. -/
def gTerm : GameState := .node ⊥ (Score.fin 3) []

/-- Sample state with two tied successors, to exercise the earliest-move
tie-break. -/
def gW : GameState :=
  .node (Score.fin 0) (Score.fin 0)
    [((0, 0), .node (Score.fin 1) (Score.fin 1) []), ((0, 1), .node (Score.fin 1) (Score.fin 1) [])]

/-- Sample state whose every successor is a terminal loss for the evaluating
player (utility `-inf`). -/
def gLoss : GameState :=
  .node (Score.fin 0) (Score.fin 0) [((0, 0), .node ⊥ ⊥ []), ((1, 1), .node ⊥ ⊥ [])]

/-- A permissive clock: every `time_left()` query reports 100 ms. -/
def clockHi : ℕ → ℚ := fun _ => 100

/-- A clock whose first query reports 100 ms and every later query 0 ms, so
the first node entry passes the time check and every later one raises. -/
def clockOne : ℕ → ℚ := fun t => if t = 0 then 100 else 0

/-- A 25x25 board, non-terminal, both players with one legal move, one player
in the corner and the other at the center. -/
def bC6 : Board where
  height := 25
  width := 25
  is_winner := fun _ => false
  is_loser := fun _ => false
  get_legal_moves := fun _ => [(1, 1)]
  get_player_location := fun p => match p with | .one => (0, 0) | .two => (12, 12)

/-- A 7x7 board, non-terminal, both players with two legal moves, at center
distances 1 and 6. -/
def bC6W : Board where
  height := 7
  width := 7
  is_winner := fun _ => false
  is_loser := fun _ => false
  get_legal_moves := fun _ => [(1, 1), (2, 2)]
  get_player_location := fun p => match p with | .one => (3, 2) | .two => (0, 0)

/-- A non-terminal board where player one has 3 legal moves and player two
has 1. -/
def bC8 : Board where
  height := 7
  width := 7
  is_winner := fun _ => false
  is_loser := fun _ => false
  get_legal_moves := fun p => match p with | .one => [(0, 0), (1, 1), (2, 2)] | .two => [(3, 3)]
  get_player_location := fun p => match p with | .one => (3, 2) | .two => (0, 0)

theorem minimax_terminal (d : ℕ) (g : GameState) (mx : Bool) (h : g.succ = []) :
    minimax d g mx = (g.utility, some (-1, -1)) := by
  rw [minimax.eq_def]
  simp [GameState.get_legal_moves, h]

theorem minimax_zero (g : GameState) (mx : Bool) (h : g.succ ≠ []) :
    minimax 0 g mx = (g.score, some (-1, -1)) := by
  rw [minimax.eq_def]
  simp [GameState.get_legal_moves, h]

theorem minimax_succ_max (d : ℕ) (g : GameState) (h : g.succ ≠ []) :
    minimax (d + 1) g true = mmMaxLoop (fun s => (minimax d s false).1) g.succ (⊥, none) := by
  rw [minimax.eq_def]
  simp [GameState.get_legal_moves, h]

theorem minimax_succ_min (d : ℕ) (g : GameState) (h : g.succ ≠ []) :
    minimax (d + 1) g false = mmMinLoop (fun s => (minimax d s true).1) g.succ (⊤, none) := by
  rw [minimax.eq_def]
  simp [GameState.get_legal_moves, h]

theorem alphabeta_terminal (d : ℕ) (g : GameState) (a b : Score) (mx : Bool) (h : g.succ = []) :
    alphabeta d g a b mx = (g.utility, some (-1, -1)) := by
  rw [alphabeta.eq_def]
  simp [GameState.get_legal_moves, h]

theorem alphabeta_zero (g : GameState) (a b : Score) (mx : Bool) (h : g.succ ≠ []) :
    alphabeta 0 g a b mx = (g.score, some (-1, -1)) := by
  rw [alphabeta.eq_def]
  simp [GameState.get_legal_moves, h]

theorem alphabeta_succ_max (d : ℕ) (g : GameState) (a b : Score) (h : g.succ ≠ []) :
    alphabeta (d + 1) g a b true
      = abMaxLoop (fun a1 b1 s => (alphabeta d s a1 b1 false).1) b g.succ (⊥, none) a := by
  rw [alphabeta.eq_def]
  simp [GameState.get_legal_moves, h]

theorem alphabeta_succ_min (d : ℕ) (g : GameState) (a b : Score) (h : g.succ ≠ []) :
    alphabeta (d + 1) g a b false
      = abMinLoop (fun a1 b1 s => (alphabeta d s a1 b1 true).1) a g.succ (⊤, none) b := by
  rw [alphabeta.eq_def]
  simp [GameState.get_legal_moves, h]

theorem le_foldl_max (f : GameState → Score) :
    ∀ (l : List (Move × GameState)) (b : Score), b ≤ l.foldl (fun a p => max a (f p.2)) b := by
  intro l
  induction l with
  | nil => intro b; simp
  | cons p rest ih =>
      intro b
      simpa using le_trans (le_max_left b (f p.2)) (ih (max b (f p.2)))

theorem foldl_max_le_iff (f : GameState → Score) (c : Score) :
    ∀ (l : List (Move × GameState)) (b : Score),
      l.foldl (fun a p => max a (f p.2)) b ≤ c ↔ b ≤ c ∧ ∀ p ∈ l, f p.2 ≤ c := by
  intro l
  induction l with
  | nil => intro b; simp
  | cons p rest ih =>
      intro b
      simp only [List.foldl_cons, ih, max_le_iff, List.mem_cons]
      constructor
      · rintro ⟨⟨h1, h2⟩, h3⟩
        refine ⟨h1, fun q hq => ?_⟩
        rcases hq with rfl | hq
        · exact h2
        · exact h3 q hq
      · rintro ⟨h1, h2⟩
        exact ⟨⟨h1, h2 p (Or.inl rfl)⟩, fun q hq => h2 q (Or.inr hq)⟩

theorem le_foldl_max_iff (f : GameState → Score) (c : Score) :
    ∀ (l : List (Move × GameState)) (b : Score),
      c ≤ l.foldl (fun a p => max a (f p.2)) b ↔ c ≤ b ∨ ∃ p ∈ l, c ≤ f p.2 := by
  intro l
  induction l with
  | nil => intro b; simp
  | cons p rest ih =>
      intro b
      simp only [List.foldl_cons, ih, le_max_iff, List.mem_cons]
      constructor
      · rintro ((h | h) | ⟨q, hq, h⟩)
        · exact Or.inl h
        · exact Or.inr ⟨p, Or.inl rfl, h⟩
        · exact Or.inr ⟨q, Or.inr hq, h⟩
      · rintro (h | ⟨q, hq | hq, h⟩)
        · exact Or.inl (Or.inl h)
        · subst hq; exact Or.inl (Or.inr h)
        · exact Or.inr ⟨q, hq, h⟩

theorem foldl_max_init (f : GameState → Score) :
    ∀ (l : List (Move × GameState)) (x y : Score),
      l.foldl (fun a p => max a (f p.2)) (max x y) = max x (l.foldl (fun a p => max a (f p.2)) y) := by
  intro l
  induction l with
  | nil => intro x y; simp
  | cons p rest ih =>
      intro x y
      simp only [List.foldl_cons, max_assoc]
      exact ih x (max y (f p.2))

theorem foldl_max_bot (f : GameState → Score) (l : List (Move × GameState)) (x : Score) :
    l.foldl (fun a p => max a (f p.2)) x = max x (l.foldl (fun a p => max a (f p.2)) ⊥) := by
  have h : x = max x (⊥ : Score) := (max_eq_left bot_le).symm
  rw [h]
  rw [foldl_max_init]
  rw [max_assoc, max_comm (⊥ : Score), ← max_assoc]
  simp

theorem foldl_min_ge (f : GameState → Score) :
    ∀ (l : List (Move × GameState)) (b : Score), l.foldl (fun a p => min a (f p.2)) b ≤ b := by
  intro l
  induction l with
  | nil => intro b; simp
  | cons p rest ih =>
      intro b
      simpa using le_trans (ih (min b (f p.2))) (min_le_left b (f p.2))

theorem le_foldl_min_iff (f : GameState → Score) (c : Score) :
    ∀ (l : List (Move × GameState)) (b : Score),
      c ≤ l.foldl (fun a p => min a (f p.2)) b ↔ c ≤ b ∧ ∀ p ∈ l, c ≤ f p.2 := by
  intro l
  induction l with
  | nil => intro b; simp
  | cons p rest ih =>
      intro b
      simp only [List.foldl_cons, ih, le_min_iff, List.mem_cons]
      constructor
      · rintro ⟨⟨h1, h2⟩, h3⟩
        refine ⟨h1, fun q hq => ?_⟩
        rcases hq with rfl | hq
        · exact h2
        · exact h3 q hq
      · rintro ⟨h1, h2⟩
        exact ⟨⟨h1, h2 p (Or.inl rfl)⟩, fun q hq => h2 q (Or.inr hq)⟩

theorem foldl_min_le_iff (f : GameState → Score) (c : Score) :
    ∀ (l : List (Move × GameState)) (b : Score),
      l.foldl (fun a p => min a (f p.2)) b ≤ c ↔ b ≤ c ∨ ∃ p ∈ l, f p.2 ≤ c := by
  intro l
  induction l with
  | nil => intro b; simp
  | cons p rest ih =>
      intro b
      simp only [List.foldl_cons, ih, min_le_iff, List.mem_cons]
      constructor
      · rintro ((h | h) | ⟨q, hq, h⟩)
        · exact Or.inl h
        · exact Or.inr ⟨p, Or.inl rfl, h⟩
        · exact Or.inr ⟨q, Or.inr hq, h⟩
      · rintro (h | ⟨q, hq | hq, h⟩)
        · exact Or.inl (Or.inl h)
        · subst hq; exact Or.inl (Or.inr h)
        · exact Or.inr ⟨q, hq, h⟩

theorem foldl_min_init (f : GameState → Score) :
    ∀ (l : List (Move × GameState)) (x y : Score),
      l.foldl (fun a p => min a (f p.2)) (min x y) = min x (l.foldl (fun a p => min a (f p.2)) y) := by
  intro l
  induction l with
  | nil => intro x y; simp
  | cons p rest ih =>
      intro x y
      simp only [List.foldl_cons, min_assoc]
      exact ih x (min y (f p.2))

theorem foldl_min_top (f : GameState → Score) (l : List (Move × GameState)) (x : Score) :
    l.foldl (fun a p => min a (f p.2)) x = min x (l.foldl (fun a p => min a (f p.2)) ⊤) := by
  have h : x = min x (⊤ : Score) := (min_eq_left le_top).symm
  rw [h]
  rw [foldl_min_init]
  rw [min_assoc, min_comm (⊤ : Score), ← min_assoc]
  simp

theorem mmMaxLoop_nil (f : GameState → Score) (best : Score × Option Move) :
    mmMaxLoop f [] best = best := rfl

theorem mmMaxLoop_cons (f : GameState → Score) (p : Move × GameState)
    (rest : List (Move × GameState)) (best : Score × Option Move) :
    mmMaxLoop f (p :: rest) best
      = mmMaxLoop f rest (if best.1 < f p.2 then (f p.2, some p.1) else best) := rfl

theorem mmMinLoop_nil (f : GameState → Score) (best : Score × Option Move) :
    mmMinLoop f [] best = best := rfl

theorem mmMinLoop_cons (f : GameState → Score) (p : Move × GameState)
    (rest : List (Move × GameState)) (best : Score × Option Move) :
    mmMinLoop f (p :: rest) best
      = mmMinLoop f rest (if f p.2 < best.1 then (f p.2, some p.1) else best) := rfl

theorem mmMaxLoop_fst (f : GameState → Score) :
    ∀ (l : List (Move × GameState)) (b : Score) (m : Option Move),
      (mmMaxLoop f l (b, m)).1 = l.foldl (fun a p => max a (f p.2)) b := by
  intro l
  induction l with
  | nil => intro b m; rfl
  | cons p rest ih =>
      intro b m
      rw [mmMaxLoop_cons, List.foldl_cons]
      by_cases h : b < f p.2
      · rw [if_pos h, ih]
        congr 1
        exact (max_eq_right (le_of_lt h)).symm
      · rw [if_neg h, ih]
        congr 1
        exact (max_eq_left (not_lt.mp h)).symm

theorem mmMinLoop_fst (f : GameState → Score) :
    ∀ (l : List (Move × GameState)) (b : Score) (m : Option Move),
      (mmMinLoop f l (b, m)).1 = l.foldl (fun a p => min a (f p.2)) b := by
  intro l
  induction l with
  | nil => intro b m; rfl
  | cons p rest ih =>
      intro b m
      rw [mmMinLoop_cons, List.foldl_cons]
      by_cases h : f p.2 < b
      · rw [if_pos h, ih]
        congr 1
        exact (min_eq_right (le_of_lt h)).symm
      · rw [if_neg h, ih]
        congr 1
        exact (min_eq_left (not_lt.mp h)).symm

theorem mmMaxLoop_of_forall_le (f : GameState → Score) :
    ∀ (l : List (Move × GameState)) (b : Score) (m : Option Move),
      (∀ p ∈ l, f p.2 ≤ b) → mmMaxLoop f l (b, m) = (b, m) := by
  intro l
  induction l with
  | nil => intro b m _; rfl
  | cons p rest ih =>
      intro b m hall
      rw [mmMaxLoop_cons, if_neg (not_lt.mpr (hall p (List.mem_cons_self p rest)))]
      exact ih b m (fun q hq => hall q (List.mem_cons_of_mem p hq))

theorem mmMinLoop_of_forall_le (f : GameState → Score) :
    ∀ (l : List (Move × GameState)) (b : Score) (m : Option Move),
      (∀ p ∈ l, b ≤ f p.2) → mmMinLoop f l (b, m) = (b, m) := by
  intro l
  induction l with
  | nil => intro b m _; rfl
  | cons p rest ih =>
      intro b m hall
      rw [mmMinLoop_cons, if_neg (not_lt.mpr (hall p (List.mem_cons_self p rest)))]
      exact ih b m (fun q hq => hall q (List.mem_cons_of_mem p hq))

theorem mmMaxLoop_attain (f : GameState → Score) :
    ∀ (l : List (Move × GameState)) (b : Score) (m : Option Move),
      b < (mmMaxLoop f l (b, m)).1 →
      ∃ i, ∃ hi : i < l.length, (mmMaxLoop f l (b, m)).2 = some (l.get ⟨i, hi⟩).1 ∧
        f (l.get ⟨i, hi⟩).2 = (mmMaxLoop f l (b, m)).1 ∧
        ∀ j, ∀ hj : j < l.length, j < i → f (l.get ⟨j, hj⟩).2 < (mmMaxLoop f l (b, m)).1 := by
  intro l
  induction l with
  | nil => intro b m h; exact absurd h (lt_irrefl b)
  | cons p rest ih =>
      intro b m h
      rw [mmMaxLoop_cons] at h ⊢
      by_cases hc : b < f p.2
      · rw [if_pos hc] at h ⊢
        by_cases h2 : f p.2 < (mmMaxLoop f rest (f p.2, some p.1)).1
        · obtain ⟨i, hi, hmove, hval, hlt⟩ := ih (f p.2) (some p.1) h2
          refine ⟨i + 1, Nat.succ_lt_succ hi, ?_, ?_, ?_⟩
          · simpa using hmove
          · simpa using hval
          · intro j hj hji
            cases j with
            | zero => simpa using h2
            | succ j0 =>
                have hj0 : j0 < rest.length := Nat.lt_of_succ_lt_succ hj
                simpa using hlt j0 hj0 (Nat.lt_of_succ_lt_succ hji)
        · have hfst := mmMaxLoop_fst f rest (f p.2) (some p.1)
          have hge : f p.2 ≤ (mmMaxLoop f rest (f p.2, some p.1)).1 := by
            rw [hfst]; exact le_foldl_max f rest (f p.2)
          have heq : (mmMaxLoop f rest (f p.2, some p.1)).1 = f p.2 :=
            le_antisymm (not_lt.mp h2) hge
          have hall : ∀ q ∈ rest, f q.2 ≤ f p.2 := by
            have hle : rest.foldl (fun a q => max a (f q.2)) (f p.2) ≤ f p.2 := by
              rw [← hfst]; exact le_of_eq heq
            exact ((foldl_max_le_iff f (f p.2) rest (f p.2)).mp hle).2
          have hres : mmMaxLoop f rest (f p.2, some p.1) = (f p.2, some p.1) :=
            mmMaxLoop_of_forall_le f rest _ _ hall
          refine ⟨0, Nat.succ_pos _, ?_, ?_, ?_⟩
          · rw [hres]
            rfl
          · rw [hres]
            rfl
          · intro j hj hj0
            exact absurd hj0 (Nat.not_lt_zero j)
      · rw [if_neg hc] at h ⊢
        obtain ⟨i, hi, hmove, hval, hlt⟩ := ih b m h
        refine ⟨i + 1, Nat.succ_lt_succ hi, ?_, ?_, ?_⟩
        · simpa using hmove
        · simpa using hval
        · intro j hj hji
          cases j with
          | zero => simpa using lt_of_le_of_lt (not_lt.mp hc) h
          | succ j0 =>
              have hj0 : j0 < rest.length := Nat.lt_of_succ_lt_succ hj
              simpa using hlt j0 hj0 (Nat.lt_of_succ_lt_succ hji)

theorem mmMinLoop_attain (f : GameState → Score) :
    ∀ (l : List (Move × GameState)) (b : Score) (m : Option Move),
      (mmMinLoop f l (b, m)).1 < b →
      ∃ i, ∃ hi : i < l.length, (mmMinLoop f l (b, m)).2 = some (l.get ⟨i, hi⟩).1 ∧
        f (l.get ⟨i, hi⟩).2 = (mmMinLoop f l (b, m)).1 ∧
        ∀ j, ∀ hj : j < l.length, j < i → (mmMinLoop f l (b, m)).1 < f (l.get ⟨j, hj⟩).2 := by
  intro l
  induction l with
  | nil => intro b m h; exact absurd h (lt_irrefl b)
  | cons p rest ih =>
      intro b m h
      rw [mmMinLoop_cons] at h ⊢
      by_cases hc : f p.2 < b
      · rw [if_pos hc] at h ⊢
        by_cases h2 : (mmMinLoop f rest (f p.2, some p.1)).1 < f p.2
        · obtain ⟨i, hi, hmove, hval, hlt⟩ := ih (f p.2) (some p.1) h2
          refine ⟨i + 1, Nat.succ_lt_succ hi, ?_, ?_, ?_⟩
          · simpa using hmove
          · simpa using hval
          · intro j hj hji
            cases j with
            | zero => simpa using h2
            | succ j0 =>
                have hj0 : j0 < rest.length := Nat.lt_of_succ_lt_succ hj
                simpa using hlt j0 hj0 (Nat.lt_of_succ_lt_succ hji)
        · have hfst := mmMinLoop_fst f rest (f p.2) (some p.1)
          have hge : (mmMinLoop f rest (f p.2, some p.1)).1 ≤ f p.2 := by
            rw [hfst]; exact foldl_min_ge f rest (f p.2)
          have heq : (mmMinLoop f rest (f p.2, some p.1)).1 = f p.2 :=
            le_antisymm hge (not_lt.mp h2)
          have hall : ∀ q ∈ rest, f p.2 ≤ f q.2 := by
            have hle : f p.2 ≤ rest.foldl (fun a q => min a (f q.2)) (f p.2) := by
              rw [← hfst]; exact le_of_eq heq.symm
            exact ((le_foldl_min_iff f (f p.2) rest (f p.2)).mp hle).2
          have hres : mmMinLoop f rest (f p.2, some p.1) = (f p.2, some p.1) :=
            mmMinLoop_of_forall_le f rest _ _ hall
          refine ⟨0, Nat.succ_pos _, ?_, ?_, ?_⟩
          · rw [hres]
            rfl
          · rw [hres]
            rfl
          · intro j hj hj0
            exact absurd hj0 (Nat.not_lt_zero j)
      · rw [if_neg hc] at h ⊢
        obtain ⟨i, hi, hmove, hval, hlt⟩ := ih b m h
        refine ⟨i + 1, Nat.succ_lt_succ hi, ?_, ?_, ?_⟩
        · simpa using hmove
        · simpa using hval
        · intro j hj hji
          cases j with
          | zero => simpa using lt_of_lt_of_le h (not_lt.mp hc)
          | succ j0 =>
              have hj0 : j0 < rest.length := Nat.lt_of_succ_lt_succ hj
              simpa using hlt j0 hj0 (Nat.lt_of_succ_lt_succ hji)

theorem KM_of_eq {v r a b : Score} (h : r = v) : KM v r a b :=
  ⟨fun hv => h.le.trans hv, fun hv => hv.trans h.symm.le, fun _ _ => h⟩

theorem abMaxLoop_nil (f : Score → Score → GameState → Score) (beta : Score)
    (best : Score × Option Move) (alpha : Score) :
    abMaxLoop f beta [] best alpha = best := rfl

theorem abMinLoop_nil (f : Score → Score → GameState → Score) (alpha : Score)
    (best : Score × Option Move) (beta : Score) :
    abMinLoop f alpha [] best beta = best := rfl

theorem abMaxLoop_cons (f : Score → Score → GameState → Score) (beta : Score)
    (p : Move × GameState) (rest : List (Move × GameState)) (b : Score) (m : Option Move)
    (alpha : Score) :
    abMaxLoop f beta (p :: rest) (b, m) alpha =
      if beta ≤ (if b < f alpha beta p.2 then (f alpha beta p.2, some p.1) else (b, m)).1
      then (if b < f alpha beta p.2 then (f alpha beta p.2, some p.1) else (b, m))
      else abMaxLoop f beta rest
        (if b < f alpha beta p.2 then (f alpha beta p.2, some p.1) else (b, m))
        (max alpha (if b < f alpha beta p.2 then (f alpha beta p.2, some p.1) else (b, m)).1) := rfl

theorem abMinLoop_cons (f : Score → Score → GameState → Score) (alpha : Score)
    (p : Move × GameState) (rest : List (Move × GameState)) (b : Score) (m : Option Move)
    (beta : Score) :
    abMinLoop f alpha (p :: rest) (b, m) beta =
      if (if f alpha beta p.2 < b then (f alpha beta p.2, some p.1) else (b, m)).1 ≤ alpha
      then (if f alpha beta p.2 < b then (f alpha beta p.2, some p.1) else (b, m))
      else abMinLoop f alpha rest
        (if f alpha beta p.2 < b then (f alpha beta p.2, some p.1) else (b, m))
        (min beta (if f alpha beta p.2 < b then (f alpha beta p.2, some p.1) else (b, m)).1) := rfl

theorem abMaxLoop_cons_eq (f : Score → Score → GameState → Score) (beta : Score)
    (p : Move × GameState) (rest : List (Move × GameState)) (b : Score) (m : Option Move)
    (alpha : Score) :
    abMaxLoop f beta (p :: rest) (b, m) alpha =
      if beta ≤ max b (f alpha beta p.2)
      then (max b (f alpha beta p.2), if b < f alpha beta p.2 then some p.1 else m)
      else abMaxLoop f beta rest
        (max b (f alpha beta p.2), if b < f alpha beta p.2 then some p.1 else m)
        (max alpha (max b (f alpha beta p.2))) := by
  rw [abMaxLoop_cons]
  by_cases hup : b < f alpha beta p.2
  · simp [hup, max_eq_right (le_of_lt hup)]
  · simp [hup, max_eq_left (not_lt.mp hup)]

theorem abMinLoop_cons_eq (f : Score → Score → GameState → Score) (alpha : Score)
    (p : Move × GameState) (rest : List (Move × GameState)) (b : Score) (m : Option Move)
    (beta : Score) :
    abMinLoop f alpha (p :: rest) (b, m) beta =
      if min b (f alpha beta p.2) ≤ alpha
      then (min b (f alpha beta p.2), if f alpha beta p.2 < b then some p.1 else m)
      else abMinLoop f alpha rest
        (min b (f alpha beta p.2), if f alpha beta p.2 < b then some p.1 else m)
        (min beta (min b (f alpha beta p.2))) := by
  rw [abMinLoop_cons]
  by_cases hup : f alpha beta p.2 < b
  · simp [hup, min_eq_right (le_of_lt hup)]
  · simp [hup, min_eq_left (not_lt.mp hup)]

theorem abMaxLoopKM (f : Score → Score → GameState → Score) (v : GameState → Score) (beta : Score) :
    ∀ (l : List (Move × GameState)) (b : Score) (m : Option Move) (alpha : Score),
      alpha < beta → b < beta →
      (∀ p ∈ l, ∀ a1 b1 : Score, a1 < b1 → KM (v p.2) (f a1 b1 p.2) a1 b1) →
      ((l.foldl (fun x p => max x (v p.2)) b ≤ alpha →
          (abMaxLoop f beta l (b, m) (max alpha b)).1 ≤ alpha) ∧
       (beta ≤ l.foldl (fun x p => max x (v p.2)) b →
          beta ≤ (abMaxLoop f beta l (b, m) (max alpha b)).1) ∧
       (alpha < l.foldl (fun x p => max x (v p.2)) b →
          l.foldl (fun x p => max x (v p.2)) b < beta →
          (abMaxLoop f beta l (b, m) (max alpha b)).1
            = l.foldl (fun x p => max x (v p.2)) b)) := by
  intro l
  induction l with
  | nil =>
      intro b m alpha _ _ _
      exact ⟨fun h => h, fun h => h, fun _ _ => rfl⟩
  | cons p rest ih =>
      intro b m alpha hab hbb hKM
      have hmab : max alpha b < beta := max_lt hab hbb
      have hKMp := hKM p (List.mem_cons_self p rest) (max alpha b) beta hmab
      have hKMrest : ∀ q ∈ rest, ∀ a1 b1 : Score, a1 < b1 → KM (v q.2) (f a1 b1 q.2) a1 b1 :=
        fun q hq => hKM q (List.mem_cons_of_mem p hq)
      have hcollapse : max (max alpha b) (max b (f (max alpha b) beta p.2))
          = max alpha (max b (f (max alpha b) beta p.2)) := by
        rw [max_assoc]
        congr 1
        rw [← max_assoc, max_self]
      simp only [List.foldl_cons]
      rw [abMaxLoop_cons_eq, hcollapse]
      by_cases hprune : beta ≤ max b (f (max alpha b) beta p.2)
      · rw [if_pos hprune]
        have hbsc : beta ≤ f (max alpha b) beta p.2 := by
          rcases le_max_iff.mp hprune with h | h
          · exact absurd h hbb.not_le
          · exact h
        have hbvc : beta ≤ v p.2 := by
          by_contra hlt
          rcases le_or_lt (v p.2) (max alpha b) with hv | hv
          · exact absurd (le_trans hbsc (hKMp.1 hv)) hmab.not_le
          · have heq := hKMp.2.2 hv (not_le.mp hlt)
            rw [heq] at hbsc
            exact hlt hbsc
        have hbW : beta ≤ rest.foldl (fun x q => max x (v q.2)) (max b (v p.2)) :=
          le_trans (le_trans hbvc (le_max_right b (v p.2))) (le_foldl_max v rest _)
        refine ⟨?_, ?_, ?_⟩
        · intro hWa
          exact absurd hWa (not_le.mpr (lt_of_lt_of_le hab hbW))
        · intro _
          exact le_trans hbsc (le_max_right b _)
        · intro _ hWb
          exact absurd hWb (not_lt.mpr hbW)
      · rw [if_neg hprune]
        have hb1b : max b (f (max alpha b) beta p.2) < beta := not_le.mp hprune
        have IH := ih (max b (f (max alpha b) beta p.2))
          (if b < f (max alpha b) beta p.2 then some p.1 else m) alpha hab hb1b hKMrest
        refine ⟨?_, ?_, ?_⟩
        · intro hWa
          have hcomp := (foldl_max_le_iff v alpha rest (max b (v p.2))).mp hWa
          have hba : b ≤ alpha := le_trans (le_max_left _ _) hcomp.1
          have hvca : v p.2 ≤ alpha := le_trans (le_max_right _ _) hcomp.1
          have hmeq : max alpha b = alpha := max_eq_left hba
          have hsca : f (max alpha b) beta p.2 ≤ alpha := by
            have h1 := hKMp.1 (le_of_le_of_eq hvca hmeq.symm)
            exact le_trans h1 (le_of_eq hmeq)
          have hW'a : rest.foldl (fun x q => max x (v q.2))
              (max b (f (max alpha b) beta p.2)) ≤ alpha :=
            (foldl_max_le_iff v alpha rest _).mpr ⟨max_le hba hsca, hcomp.2⟩
          exact IH.1 hW'a
        · intro hbW
          rcases (le_foldl_max_iff v beta rest (max b (v p.2))).mp hbW with h | ⟨q, hq, hqv⟩
          · rcases le_max_iff.mp h with h1 | h1
            · exact absurd h1 hbb.not_le
            · exact absurd (le_trans (hKMp.2.1 h1) (le_max_right b _)) hprune
          · have hbW' : beta ≤ rest.foldl (fun x q => max x (v q.2))
                (max b (f (max alpha b) beta p.2)) :=
              (le_foldl_max_iff v beta rest _).mpr (Or.inr ⟨q, hq, hqv⟩)
            exact IH.2.1 hbW'
        · intro haW hWb
          have hW'W : rest.foldl (fun x q => max x (v q.2))
              (max b (f (max alpha b) beta p.2))
              = rest.foldl (fun x q => max x (v q.2)) (max b (v p.2)) := by
            rcases le_or_lt (v p.2) (max alpha b) with hv1 | hv1
            · have hsc1 : f (max alpha b) beta p.2 ≤ max alpha b := hKMp.1 hv1
              have hWeq : rest.foldl (fun x q => max x (v q.2)) (max b (v p.2))
                  = max (v p.2) (max b (rest.foldl (fun x q => max x (v q.2)) ⊥)) := by
                rw [foldl_max_bot v rest (max b (v p.2)), max_assoc, max_left_comm]
              have hW'eq : rest.foldl (fun x q => max x (v q.2))
                  (max b (f (max alpha b) beta p.2))
                  = max (f (max alpha b) beta p.2)
                      (max b (rest.foldl (fun x q => max x (v q.2)) ⊥)) := by
                rw [foldl_max_bot v rest (max b (f (max alpha b) beta p.2)),
                  max_assoc, max_left_comm]
              have hvcK : v p.2 ≤ max b (rest.foldl (fun x q => max x (v q.2)) ⊥) := by
                by_contra hK
                push_neg at hK
                have hWvc : rest.foldl (fun x q => max x (v q.2)) (max b (v p.2)) = v p.2 := by
                  rw [hWeq]
                  exact max_eq_left hK.le
                rcases le_max_iff.mp hv1 with h1 | h1
                · rw [hWvc] at haW
                  exact absurd haW (not_lt.mpr h1)
                · exact absurd (le_trans h1 (le_max_left b _)) (not_le.mpr hK)
              have hscK : f (max alpha b) beta p.2
                  ≤ max b (rest.foldl (fun x q => max x (v q.2)) ⊥) := by
                by_contra hK
                push_neg at hK
                rcases le_max_iff.mp hsc1 with h1 | h1
                · have hWK : rest.foldl (fun x q => max x (v q.2)) (max b (v p.2))
                      = max b (rest.foldl (fun x q => max x (v q.2)) ⊥) := by
                    rw [hWeq]
                    exact max_eq_right hvcK
                  have hWa : rest.foldl (fun x q => max x (v q.2)) (max b (v p.2)) < alpha := by
                    rw [hWK]
                    exact lt_of_lt_of_le hK h1
                  exact (lt_asymm haW) hWa
                · exact absurd (le_trans h1 (le_max_left b _)) (not_le.mpr hK)
              rw [hW'eq, max_eq_right hscK, hWeq, max_eq_right hvcK]
            · rcases lt_or_le (v p.2) beta with hv2 | hv2
              · rw [hKMp.2.2 hv1 hv2]
              · exact absurd (le_trans (hKMp.2.1 hv2) (le_max_right b _)) hprune
          have h3 := IH.2.2
          rw [hW'W] at h3
          exact h3 haW hWb

theorem abMinLoopKM (f : Score → Score → GameState → Score) (v : GameState → Score) (alpha : Score) :
    ∀ (l : List (Move × GameState)) (b : Score) (m : Option Move) (beta : Score),
      alpha < beta → alpha < b →
      (∀ p ∈ l, ∀ a1 b1 : Score, a1 < b1 → KM (v p.2) (f a1 b1 p.2) a1 b1) →
      ((l.foldl (fun x p => min x (v p.2)) b ≤ alpha →
          (abMinLoop f alpha l (b, m) (min beta b)).1 ≤ alpha) ∧
       (beta ≤ l.foldl (fun x p => min x (v p.2)) b →
          beta ≤ (abMinLoop f alpha l (b, m) (min beta b)).1) ∧
       (alpha < l.foldl (fun x p => min x (v p.2)) b →
          l.foldl (fun x p => min x (v p.2)) b < beta →
          (abMinLoop f alpha l (b, m) (min beta b)).1
            = l.foldl (fun x p => min x (v p.2)) b)) := by
  intro l
  induction l with
  | nil =>
      intro b m beta _ _ _
      exact ⟨fun h => h, fun h => h, fun _ _ => rfl⟩
  | cons p rest ih =>
      intro b m beta hab hbb hKM
      have hmab : alpha < min beta b := lt_min hab hbb
      have hKMp := hKM p (List.mem_cons_self p rest) alpha (min beta b) hmab
      have hKMrest : ∀ q ∈ rest, ∀ a1 b1 : Score, a1 < b1 → KM (v q.2) (f a1 b1 q.2) a1 b1 :=
        fun q hq => hKM q (List.mem_cons_of_mem p hq)
      have hcollapse : min (min beta b) (min b (f alpha (min beta b) p.2))
          = min beta (min b (f alpha (min beta b) p.2)) := by
        rw [min_assoc]
        congr 1
        rw [← min_assoc, min_self]
      simp only [List.foldl_cons]
      rw [abMinLoop_cons_eq, hcollapse]
      by_cases hprune : min b (f alpha (min beta b) p.2) ≤ alpha
      · rw [if_pos hprune]
        have hsca : f alpha (min beta b) p.2 ≤ alpha := by
          rcases min_le_iff.mp hprune with h | h
          · exact absurd h hbb.not_le
          · exact h
        have hvca : v p.2 ≤ alpha := by
          by_contra hlt
          rcases le_or_lt (min beta b) (v p.2) with hv | hv
          · exact absurd (le_trans (hKMp.2.1 hv) hsca) hmab.not_le
          · have heq := hKMp.2.2 (not_le.mp hlt) hv
            rw [heq] at hsca
            exact hlt hsca
        have hWa : rest.foldl (fun x q => min x (v q.2)) (min b (v p.2)) ≤ alpha :=
          le_trans (foldl_min_ge v rest _) (le_trans (min_le_right b (v p.2)) hvca)
        refine ⟨?_, ?_, ?_⟩
        · intro _
          exact le_trans (min_le_right b _) hsca
        · intro hbW
          exact absurd (le_trans hbW hWa) hab.not_le
        · intro haW _
          exact absurd haW (not_lt.mpr hWa)
      · rw [if_neg hprune]
        have hb1 : alpha < min b (f alpha (min beta b) p.2) := not_le.mp hprune
        have IH := ih (min b (f alpha (min beta b) p.2))
          (if f alpha (min beta b) p.2 < b then some p.1 else m) beta hab hb1 hKMrest
        refine ⟨?_, ?_, ?_⟩
        · intro hWa
          rcases (foldl_min_le_iff v alpha rest (min b (v p.2))).mp hWa with h | ⟨q, hq, hqv⟩
          · rcases min_le_iff.mp h with h1 | h1
            · exact absurd h1 hbb.not_le
            · exact absurd (le_trans (min_le_right b _) (hKMp.1 h1)) hprune
          · have hW'a : rest.foldl (fun x q => min x (v q.2))
                (min b (f alpha (min beta b) p.2)) ≤ alpha :=
              (foldl_min_le_iff v alpha rest _).mpr (Or.inr ⟨q, hq, hqv⟩)
            exact IH.1 hW'a
        · intro hbW
          have hcomp := (le_foldl_min_iff v beta rest (min b (v p.2))).mp hbW
          have hbb2 : beta ≤ b := le_trans hcomp.1 (min_le_left _ _)
          have hbvc : beta ≤ v p.2 := le_trans hcomp.1 (min_le_right _ _)
          have hmeq : min beta b = beta := min_eq_left hbb2
          have hbsc : beta ≤ f alpha (min beta b) p.2 := by
            have h1 := hKMp.2.1 (le_trans (min_le_left beta b) hbvc)
            exact le_of_eq_of_le hmeq.symm h1
          have hbW' : beta ≤ rest.foldl (fun x q => min x (v q.2))
              (min b (f alpha (min beta b) p.2)) :=
            (le_foldl_min_iff v beta rest _).mpr ⟨le_min hbb2 hbsc, hcomp.2⟩
          exact IH.2.1 hbW'
        · intro haW hWb
          have hW'W : rest.foldl (fun x q => min x (v q.2))
              (min b (f alpha (min beta b) p.2))
              = rest.foldl (fun x q => min x (v q.2)) (min b (v p.2)) := by
            rcases le_or_lt (min beta b) (v p.2) with hv1 | hv1
            · have hsc1 : min beta b ≤ f alpha (min beta b) p.2 := hKMp.2.1 hv1
              have hWeq : rest.foldl (fun x q => min x (v q.2)) (min b (v p.2))
                  = min (v p.2) (min b (rest.foldl (fun x q => min x (v q.2)) ⊤)) := by
                rw [foldl_min_top v rest (min b (v p.2)), min_assoc, min_left_comm]
              have hW'eq : rest.foldl (fun x q => min x (v q.2))
                  (min b (f alpha (min beta b) p.2))
                  = min (f alpha (min beta b) p.2)
                      (min b (rest.foldl (fun x q => min x (v q.2)) ⊤)) := by
                rw [foldl_min_top v rest (min b (f alpha (min beta b) p.2)),
                  min_assoc, min_left_comm]
              have hvcK : min b (rest.foldl (fun x q => min x (v q.2)) ⊤) ≤ v p.2 := by
                by_contra hK
                push_neg at hK
                have hWvc : rest.foldl (fun x q => min x (v q.2)) (min b (v p.2)) = v p.2 := by
                  rw [hWeq]
                  exact min_eq_left hK.le
                rcases min_le_iff.mp hv1 with h1 | h1
                · rw [hWvc] at hWb
                  exact absurd hWb (not_lt.mpr h1)
                · exact absurd (le_trans (min_le_left b _) h1) (not_le.mpr hK)
              have hscK : min b (rest.foldl (fun x q => min x (v q.2)) ⊤)
                  ≤ f alpha (min beta b) p.2 := by
                by_contra hK
                push_neg at hK
                rcases min_le_iff.mp hsc1 with h1 | h1
                · have hWK : rest.foldl (fun x q => min x (v q.2)) (min b (v p.2))
                      = min b (rest.foldl (fun x q => min x (v q.2)) ⊤) := by
                    rw [hWeq]
                    exact min_eq_right hvcK
                  have hbW2 : beta < rest.foldl (fun x q => min x (v q.2)) (min b (v p.2)) := by
                    rw [hWK]
                    exact lt_of_le_of_lt h1 hK
                  exact (lt_asymm hWb) hbW2
                · exact absurd (le_trans (min_le_left b _) h1) (not_le.mpr hK)
              rw [hW'eq, min_eq_right hscK, hWeq, min_eq_right hvcK]
            · rcases lt_or_le alpha (v p.2) with hv2 | hv2
              · rw [hKMp.2.2 hv2 hv1]
              · exact absurd (le_trans (min_le_right b _) (hKMp.1 hv2)) hprune
          have h3 := IH.2.2
          rw [hW'W] at h3
          exact h3 haW hWb

theorem alphabeta_KM : ∀ (d : ℕ) (g : GameState) (a b : Score) (mx : Bool), a < b →
    KM ((minimax d g mx).1) ((alphabeta d g a b mx).1) a b := by
  intro d
  induction d with
  | zero =>
      intro g a b mx _
      by_cases h : g.succ = []
      · exact KM_of_eq (by rw [alphabeta_terminal 0 g a b mx h, minimax_terminal 0 g mx h])
      · exact KM_of_eq (by rw [alphabeta_zero g a b mx h, minimax_zero g mx h])
  | succ d ihd =>
      intro g a b mx hab
      by_cases h : g.succ = []
      · exact KM_of_eq
          (by rw [alphabeta_terminal (d + 1) g a b mx h, minimax_terminal (d + 1) g mx h])
      · cases mx with
        | true =>
            rw [minimax_succ_max d g h, alphabeta_succ_max d g a b h]
            rw [mmMaxLoop_fst (fun s => (minimax d s false).1) g.succ ⊥ none]
            have hbot : (⊥ : Score) < b := lt_of_le_of_lt bot_le hab
            have hKMl := abMaxLoopKM (fun a1 b1 s => (alphabeta d s a1 b1 false).1)
              (fun s => (minimax d s false).1) b g.succ ⊥ none a hab hbot
              (fun p _ a1 b1 h1 => ihd p.2 a1 b1 false h1)
            rw [max_eq_left bot_le] at hKMl
            exact hKMl
        | false =>
            rw [minimax_succ_min d g h, alphabeta_succ_min d g a b h]
            rw [mmMinLoop_fst (fun s => (minimax d s true).1) g.succ ⊤ none]
            have htop : a < (⊤ : Score) := lt_of_lt_of_le hab le_top
            have hKMl := abMinLoopKM (fun a1 b1 s => (alphabeta d s a1 b1 true).1)
              (fun s => (minimax d s true).1) a g.succ ⊤ none b hab htop
              (fun p _ a1 b1 h1 => ihd p.2 a1 b1 true h1)
            rw [min_eq_left le_top] at hKMl
            exact hKMl

theorem abMaxLoop_root (f : Score → Score → GameState → Score) (v : GameState → Score) :
    ∀ (l : List (Move × GameState)) (b : Score) (m : Option Move),
      b < ⊤ →
      (∀ p ∈ l, ∀ a1 : Score, a1 < ⊤ → KM (v p.2) (f a1 ⊤ p.2) a1 ⊤) →
      abMaxLoop f ⊤ l (b, m) b = mmMaxLoop v l (b, m) := by
  intro l
  induction l with
  | nil => intro b m _ _; rfl
  | cons p rest ih =>
      intro b m hb hKM
      have hKMp := hKM p (List.mem_cons_self p rest) b hb
      have hKMrest : ∀ q ∈ rest, ∀ a1 : Score, a1 < ⊤ → KM (v q.2) (f a1 ⊤ q.2) a1 ⊤ :=
        fun q hq => hKM q (List.mem_cons_of_mem p hq)
      rw [mmMaxLoop_cons, abMaxLoop_cons_eq]
      rcases le_or_lt (v p.2) b with hv | hv
      · have hsc : f b ⊤ p.2 ≤ b := hKMp.1 hv
        simp only [max_eq_left hsc]
        rw [if_neg hb.not_le, if_neg (not_lt.mpr hsc), if_neg (not_lt.mpr hv), max_self]
        exact ih b m hb hKMrest
      · rcases lt_or_le (v p.2) ⊤ with hv2 | hv2
        · have hsc : f b ⊤ p.2 = v p.2 := hKMp.2.2 hv hv2
          rw [hsc]
          simp only [max_eq_right hv.le]
          rw [if_neg hv2.not_le]
          simp only [if_pos hv]
          exact ih (v p.2) (some p.1) hv2 hKMrest
        · have hvc : v p.2 = ⊤ := top_le_iff.mp hv2
          have hsc2 : f b ⊤ p.2 = ⊤ := top_le_iff.mp (hKMp.2.1 hv2)
          rw [hsc2, hvc]
          simp only [max_eq_right hb.le]
          rw [if_pos le_rfl]
          simp only [if_pos hb]
          exact (mmMaxLoop_of_forall_le v rest ⊤ (some p.1) (fun q _ => le_top)).symm

theorem abMinLoop_root (f : Score → Score → GameState → Score) (v : GameState → Score) :
    ∀ (l : List (Move × GameState)) (b : Score) (m : Option Move),
      ⊥ < b →
      (∀ p ∈ l, ∀ b1 : Score, ⊥ < b1 → KM (v p.2) (f ⊥ b1 p.2) ⊥ b1) →
      abMinLoop f ⊥ l (b, m) b = mmMinLoop v l (b, m) := by
  intro l
  induction l with
  | nil => intro b m _ _; rfl
  | cons p rest ih =>
      intro b m hb hKM
      have hKMp := hKM p (List.mem_cons_self p rest) b hb
      have hKMrest : ∀ q ∈ rest, ∀ b1 : Score, ⊥ < b1 → KM (v q.2) (f ⊥ b1 q.2) ⊥ b1 :=
        fun q hq => hKM q (List.mem_cons_of_mem p hq)
      rw [mmMinLoop_cons, abMinLoop_cons_eq]
      rcases le_or_lt b (v p.2) with hv | hv
      · have hsc : b ≤ f ⊥ b p.2 := hKMp.2.1 hv
        simp only [min_eq_left hsc]
        rw [if_neg hb.not_le, if_neg (not_lt.mpr hsc), if_neg (not_lt.mpr hv), min_self]
        exact ih b m hb hKMrest
      · rcases lt_or_le ⊥ (v p.2) with hv2 | hv2
        · have hsc : f ⊥ b p.2 = v p.2 := hKMp.2.2 hv2 hv
          rw [hsc]
          simp only [min_eq_right hv.le]
          rw [if_neg (not_le.mpr hv2)]
          simp only [if_pos hv]
          exact ih (v p.2) (some p.1) hv2 hKMrest
        · have hvc : v p.2 = ⊥ := le_bot_iff.mp hv2
          have hsc2 : f ⊥ b p.2 = ⊥ := le_bot_iff.mp (hKMp.1 hv2)
          rw [hsc2, hvc]
          simp only [min_eq_right bot_le]
          rw [if_pos le_rfl]
          simp only [if_pos hb]
          exact (mmMinLoop_of_forall_le v rest ⊥ (some p.1) (fun q _ => bot_le)).symm

theorem alphabeta_root_eq : ∀ (d : ℕ) (g : GameState) (mx : Bool),
    alphabeta d g ⊥ ⊤ mx = minimax d g mx := by
  intro d g mx
  by_cases h : g.succ = []
  · rw [alphabeta_terminal d g ⊥ ⊤ mx h, minimax_terminal d g mx h]
  · cases d with
    | zero => rw [alphabeta_zero g ⊥ ⊤ mx h, minimax_zero g mx h]
    | succ d =>
        cases mx with
        | true =>
            rw [alphabeta_succ_max d g ⊥ ⊤ h, minimax_succ_max d g h]
            exact abMaxLoop_root _ _ g.succ ⊥ none bot_lt_top
              (fun p _ a1 h1 => alphabeta_KM d p.2 a1 ⊤ false h1)
        | false =>
            rw [alphabeta_succ_min d g ⊥ ⊤ h, minimax_succ_min d g h]
            exact abMinLoop_root _ _ g.succ ⊤ none bot_lt_top
              (fun p _ b1 h1 => alphabeta_KM d p.2 ⊥ b1 true h1)

theorem mmCount_terminal (d : ℕ) (g : GameState) (mx : Bool) (h : g.succ = []) :
    mmCount d g mx = 1 := by
  rw [mmCount.eq_def]
  simp [GameState.get_legal_moves, h]

theorem mmCount_zero (g : GameState) (mx : Bool) (h : g.succ ≠ []) :
    mmCount 0 g mx = 1 := by
  rw [mmCount.eq_def]
  simp [GameState.get_legal_moves, h]

theorem mmCount_succ_max (d : ℕ) (g : GameState) (h : g.succ ≠ []) :
    mmCount (d + 1) g true = 1 + (g.succ.map (fun p => mmCount d p.2 false)).sum := by
  rw [mmCount.eq_def]
  simp [GameState.get_legal_moves, h]

theorem mmCount_succ_min (d : ℕ) (g : GameState) (h : g.succ ≠ []) :
    mmCount (d + 1) g false = 1 + (g.succ.map (fun p => mmCount d p.2 true)).sum := by
  rw [mmCount.eq_def]
  simp [GameState.get_legal_moves, h]

theorem abCount_terminal (d : ℕ) (g : GameState) (a b : Score) (mx : Bool) (h : g.succ = []) :
    abCount d g a b mx = 1 := by
  rw [abCount.eq_def]
  simp [GameState.get_legal_moves, h]

theorem abCount_zero (g : GameState) (a b : Score) (mx : Bool) (h : g.succ ≠ []) :
    abCount 0 g a b mx = 1 := by
  rw [abCount.eq_def]
  simp [GameState.get_legal_moves, h]

theorem abCount_succ_max (d : ℕ) (g : GameState) (a b : Score) (h : g.succ ≠ []) :
    abCount (d + 1) g a b true
      = 1 + abMaxLoopCnt (fun a1 b1 s => (alphabeta d s a1 b1 false).1)
          (fun a1 b1 s => abCount d s a1 b1 false) b g.succ (⊥, none) a := by
  rw [abCount.eq_def]
  simp [GameState.get_legal_moves, h]

theorem abCount_succ_min (d : ℕ) (g : GameState) (a b : Score) (h : g.succ ≠ []) :
    abCount (d + 1) g a b false
      = 1 + abMinLoopCnt (fun a1 b1 s => (alphabeta d s a1 b1 true).1)
          (fun a1 b1 s => abCount d s a1 b1 true) a g.succ (⊤, none) b := by
  rw [abCount.eq_def]
  simp [GameState.get_legal_moves, h]

theorem abMaxLoopCnt_le (f : Score → Score → GameState → Score)
    (fc : Score → Score → GameState → ℕ) (mc : GameState → ℕ) (beta : Score) :
    ∀ (l : List (Move × GameState)) (best : Score × Option Move) (alpha : Score),
      (∀ p ∈ l, ∀ a1 b1 : Score, fc a1 b1 p.2 ≤ mc p.2) →
      abMaxLoopCnt f fc beta l best alpha ≤ (l.map (fun p => mc p.2)).sum := by
  intro l
  induction l with
  | nil => intro best alpha _; simp [abMaxLoopCnt]
  | cons p rest ih =>
      intro best alpha hle
      rw [abMaxLoopCnt.eq_def]
      simp only [List.map_cons, List.sum_cons]
      have hp := hle p (List.mem_cons_self p rest) alpha beta
      have hrest : ∀ q ∈ rest, ∀ a1 b1 : Score, fc a1 b1 q.2 ≤ mc q.2 :=
        fun q hq => hle q (List.mem_cons_of_mem p hq)
      split <;> (try split) <;>
        first
          | exact Nat.add_le_add hp (Nat.zero_le _)
          | exact Nat.add_le_add hp (ih _ _ hrest)

theorem abMinLoopCnt_le (f : Score → Score → GameState → Score)
    (fc : Score → Score → GameState → ℕ) (mc : GameState → ℕ) (alpha : Score) :
    ∀ (l : List (Move × GameState)) (best : Score × Option Move) (beta : Score),
      (∀ p ∈ l, ∀ a1 b1 : Score, fc a1 b1 p.2 ≤ mc p.2) →
      abMinLoopCnt f fc alpha l best beta ≤ (l.map (fun p => mc p.2)).sum := by
  intro l
  induction l with
  | nil => intro best beta _; simp [abMinLoopCnt]
  | cons p rest ih =>
      intro best beta hle
      rw [abMinLoopCnt.eq_def]
      simp only [List.map_cons, List.sum_cons]
      have hp := hle p (List.mem_cons_self p rest) alpha beta
      have hrest : ∀ q ∈ rest, ∀ a1 b1 : Score, fc a1 b1 q.2 ≤ mc q.2 :=
        fun q hq => hle q (List.mem_cons_of_mem p hq)
      split <;> (try split) <;>
        first
          | exact Nat.add_le_add hp (Nat.zero_le _)
          | exact Nat.add_le_add hp (ih _ _ hrest)

theorem abCount_le_mmCount : ∀ (d : ℕ) (g : GameState) (a b : Score) (mx : Bool),
    abCount d g a b mx ≤ mmCount d g mx := by
  intro d
  induction d with
  | zero =>
      intro g a b mx
      by_cases h : g.succ = []
      · rw [abCount_terminal 0 g a b mx h, mmCount_terminal 0 g mx h]
      · rw [abCount_zero g a b mx h, mmCount_zero g mx h]
  | succ d ih =>
      intro g a b mx
      by_cases h : g.succ = []
      · rw [abCount_terminal (d + 1) g a b mx h, mmCount_terminal (d + 1) g mx h]
      · cases mx with
        | true =>
            rw [abCount_succ_max d g a b h, mmCount_succ_max d g h]
            exact Nat.add_le_add_left
              (abMaxLoopCnt_le _ _ (fun s => mmCount d s false) b g.succ (⊥, none) a
                (fun p _ a1 b1 => ih p.2 a1 b1 false)) 1
        | false =>
            rw [abCount_succ_min d g a b h, mmCount_succ_min d g h]
            exact Nat.add_le_add_left
              (abMinLoopCnt_le _ _ (fun s => mmCount d s true) a g.succ (⊤, none) b
                (fun p _ a1 b1 => ih p.2 a1 b1 true)) 1

theorem minimaxT_timeout (clock : ℕ → ℚ) (thr : ℚ) (d : ℕ) (g : GameState) (mx : Bool) (t : ℕ)
    (h : clock t < thr) : minimaxT clock thr d g mx t = .error .mk := by
  rw [minimaxT.eq_def]
  simp [h]

theorem minimaxT_terminal (clock : ℕ → ℚ) (thr : ℚ) (d : ℕ) (g : GameState) (mx : Bool) (t : ℕ)
    (h1 : ¬ clock t < thr) (h2 : g.succ = []) :
    minimaxT clock thr d g mx t = .ok ((g.utility, some (-1, -1)), t + 1) := by
  rw [minimaxT.eq_def]
  simp [h1, GameState.get_legal_moves, h2]

theorem minimaxT_zero (clock : ℕ → ℚ) (thr : ℚ) (g : GameState) (mx : Bool) (t : ℕ)
    (h1 : ¬ clock t < thr) (h2 : g.succ ≠ []) :
    minimaxT clock thr 0 g mx t = .ok ((g.score, some (-1, -1)), t + 1) := by
  rw [minimaxT.eq_def]
  simp [h1, GameState.get_legal_moves, h2]

theorem minimaxT_succ_max (clock : ℕ → ℚ) (thr : ℚ) (d : ℕ) (g : GameState) (t : ℕ)
    (h1 : ¬ clock t < thr) (h2 : g.succ ≠ []) :
    minimaxT clock thr (d + 1) g true t
      = mmMaxLoopT (fun t1 s => (minimaxT clock thr d s false t1).map (fun r => (r.1.1, r.2)))
          g.succ (⊥, none) (t + 1) := by
  rw [minimaxT.eq_def]
  simp [h1, GameState.get_legal_moves, h2]

theorem minimaxT_succ_min (clock : ℕ → ℚ) (thr : ℚ) (d : ℕ) (g : GameState) (t : ℕ)
    (h1 : ¬ clock t < thr) (h2 : g.succ ≠ []) :
    minimaxT clock thr (d + 1) g false t
      = mmMinLoopT (fun t1 s => (minimaxT clock thr d s true t1).map (fun r => (r.1.1, r.2)))
          g.succ (⊤, none) (t + 1) := by
  rw [minimaxT.eq_def]
  simp [h1, GameState.get_legal_moves, h2]

theorem alphabetaT_timeout (clock : ℕ → ℚ) (thr : ℚ) (d : ℕ) (g : GameState) (a b : Score)
    (mx : Bool) (t : ℕ) (h : clock t < thr) :
    alphabetaT clock thr d g a b mx t = .error .mk := by
  rw [alphabetaT.eq_def]
  simp [h]

theorem alphabetaT_terminal (clock : ℕ → ℚ) (thr : ℚ) (d : ℕ) (g : GameState) (a b : Score)
    (mx : Bool) (t : ℕ) (h1 : ¬ clock t < thr) (h2 : g.succ = []) :
    alphabetaT clock thr d g a b mx t = .ok ((g.utility, some (-1, -1)), t + 1) := by
  rw [alphabetaT.eq_def]
  simp [h1, GameState.get_legal_moves, h2]

theorem alphabetaT_zero (clock : ℕ → ℚ) (thr : ℚ) (g : GameState) (a b : Score)
    (mx : Bool) (t : ℕ) (h1 : ¬ clock t < thr) (h2 : g.succ ≠ []) :
    alphabetaT clock thr 0 g a b mx t = .ok ((g.score, some (-1, -1)), t + 1) := by
  rw [alphabetaT.eq_def]
  simp [h1, GameState.get_legal_moves, h2]

theorem alphabetaT_succ_max (clock : ℕ → ℚ) (thr : ℚ) (d : ℕ) (g : GameState) (a b : Score)
    (t : ℕ) (h1 : ¬ clock t < thr) (h2 : g.succ ≠ []) :
    alphabetaT clock thr (d + 1) g a b true t
      = abMaxLoopT
          (fun a1 b1 t1 s => (alphabetaT clock thr d s a1 b1 false t1).map (fun r => (r.1.1, r.2)))
          b g.succ (⊥, none) a (t + 1) := by
  rw [alphabetaT.eq_def]
  simp [h1, GameState.get_legal_moves, h2]

theorem alphabetaT_succ_min (clock : ℕ → ℚ) (thr : ℚ) (d : ℕ) (g : GameState) (a b : Score)
    (t : ℕ) (h1 : ¬ clock t < thr) (h2 : g.succ ≠ []) :
    alphabetaT clock thr (d + 1) g a b false t
      = abMinLoopT
          (fun a1 b1 t1 s => (alphabetaT clock thr d s a1 b1 true t1).map (fun r => (r.1.1, r.2)))
          a g.succ (⊤, none) b (t + 1) := by
  rw [alphabetaT.eq_def]
  simp [h1, GameState.get_legal_moves, h2]

theorem mmMaxLoopT_good (f : ℕ → GameState → Except Timeout (Score × ℕ))
    (fp : GameState → Score) (fc : GameState → ℕ) :
    ∀ (l : List (Move × GameState)) (best : Score × Option Move) (t : ℕ),
      (∀ p ∈ l, ∀ t1 : ℕ, f t1 p.2 = .ok (fp p.2, t1 + fc p.2)) →
      mmMaxLoopT f l best t = .ok (mmMaxLoop fp l best, t + (l.map (fun p => fc p.2)).sum) := by
  intro l
  induction l with
  | nil => intro best t _; simp [mmMaxLoopT, mmMaxLoop]
  | cons p rest ih =>
      intro best t hgood
      have hp := hgood p (List.mem_cons_self p rest) t
      have hrest : ∀ q ∈ rest, ∀ t1 : ℕ, f t1 q.2 = .ok (fp q.2, t1 + fc q.2) :=
        fun q hq => hgood q (List.mem_cons_of_mem p hq)
      simp only [mmMaxLoopT, hp]
      rw [ih _ _ hrest, mmMaxLoop_cons]
      simp only [List.map_cons, List.sum_cons]
      rw [Nat.add_assoc]

theorem mmMinLoopT_good (f : ℕ → GameState → Except Timeout (Score × ℕ))
    (fp : GameState → Score) (fc : GameState → ℕ) :
    ∀ (l : List (Move × GameState)) (best : Score × Option Move) (t : ℕ),
      (∀ p ∈ l, ∀ t1 : ℕ, f t1 p.2 = .ok (fp p.2, t1 + fc p.2)) →
      mmMinLoopT f l best t = .ok (mmMinLoop fp l best, t + (l.map (fun p => fc p.2)).sum) := by
  intro l
  induction l with
  | nil => intro best t _; simp [mmMinLoopT, mmMinLoop]
  | cons p rest ih =>
      intro best t hgood
      have hp := hgood p (List.mem_cons_self p rest) t
      have hrest : ∀ q ∈ rest, ∀ t1 : ℕ, f t1 q.2 = .ok (fp q.2, t1 + fc q.2) :=
        fun q hq => hgood q (List.mem_cons_of_mem p hq)
      simp only [mmMinLoopT, hp]
      rw [ih _ _ hrest, mmMinLoop_cons]
      simp only [List.map_cons, List.sum_cons]
      rw [Nat.add_assoc]

theorem abMaxLoopT_good (f : Score → Score → ℕ → GameState → Except Timeout (Score × ℕ))
    (fp : Score → Score → GameState → Score) (fc : Score → Score → GameState → ℕ) (beta : Score) :
    ∀ (l : List (Move × GameState)) (best : Score × Option Move) (alpha : Score) (t : ℕ),
      (∀ p ∈ l, ∀ a1 b1 : Score, ∀ t1 : ℕ,
        f a1 b1 t1 p.2 = .ok (fp a1 b1 p.2, t1 + fc a1 b1 p.2)) →
      abMaxLoopT f beta l best alpha t
        = .ok (abMaxLoop fp beta l best alpha, t + abMaxLoopCnt fp fc beta l best alpha) := by
  intro l
  induction l with
  | nil => intro best alpha t _; simp [abMaxLoopT, abMaxLoop, abMaxLoopCnt]
  | cons p rest ih =>
      intro best alpha t hgood
      have hp := hgood p (List.mem_cons_self p rest) alpha beta t
      have hrest : ∀ q ∈ rest, ∀ a1 b1 : Score, ∀ t1 : ℕ,
          f a1 b1 t1 q.2 = .ok (fp a1 b1 q.2, t1 + fc a1 b1 q.2) :=
        fun q hq => hgood q (List.mem_cons_of_mem p hq)
      simp only [abMaxLoopT, abMaxLoop, abMaxLoopCnt, hp]
      by_cases hpr : beta ≤ (if best.1 < fp alpha beta p.2
          then (fp alpha beta p.2, some p.1) else best).1
      · simp only [if_pos hpr, Nat.add_zero]
      · simp only [if_neg hpr]
        rw [ih _ _ _ hrest, Nat.add_assoc]

theorem abMinLoopT_good (f : Score → Score → ℕ → GameState → Except Timeout (Score × ℕ))
    (fp : Score → Score → GameState → Score) (fc : Score → Score → GameState → ℕ) (alpha : Score) :
    ∀ (l : List (Move × GameState)) (best : Score × Option Move) (beta : Score) (t : ℕ),
      (∀ p ∈ l, ∀ a1 b1 : Score, ∀ t1 : ℕ,
        f a1 b1 t1 p.2 = .ok (fp a1 b1 p.2, t1 + fc a1 b1 p.2)) →
      abMinLoopT f alpha l best beta t
        = .ok (abMinLoop fp alpha l best beta, t + abMinLoopCnt fp fc alpha l best beta) := by
  intro l
  induction l with
  | nil => intro best beta t _; simp [abMinLoopT, abMinLoop, abMinLoopCnt]
  | cons p rest ih =>
      intro best beta t hgood
      have hp := hgood p (List.mem_cons_self p rest) alpha beta t
      have hrest : ∀ q ∈ rest, ∀ a1 b1 : Score, ∀ t1 : ℕ,
          f a1 b1 t1 q.2 = .ok (fp a1 b1 q.2, t1 + fc a1 b1 q.2) :=
        fun q hq => hgood q (List.mem_cons_of_mem p hq)
      simp only [abMinLoopT, abMinLoop, abMinLoopCnt, hp]
      by_cases hpr : (if fp alpha beta p.2 < best.1
          then (fp alpha beta p.2, some p.1) else best).1 ≤ alpha
      · simp only [if_pos hpr, Nat.add_zero]
      · simp only [if_neg hpr]
        rw [ih _ _ _ hrest, Nat.add_assoc]

theorem minimaxT_good (clock : ℕ → ℚ) (thr : ℚ) (hclk : ∀ n, ¬ clock n < thr) :
    ∀ (d : ℕ) (g : GameState) (mx : Bool) (t : ℕ),
      minimaxT clock thr d g mx t = .ok (minimax d g mx, t + mmCount d g mx) := by
  intro d
  induction d with
  | zero =>
      intro g mx t
      by_cases h : g.succ = []
      · rw [minimaxT_terminal clock thr 0 g mx t (hclk t) h, minimax_terminal 0 g mx h,
          mmCount_terminal 0 g mx h]
      · rw [minimaxT_zero clock thr g mx t (hclk t) h, minimax_zero g mx h, mmCount_zero g mx h]
  | succ d ih =>
      intro g mx t
      by_cases h : g.succ = []
      · rw [minimaxT_terminal clock thr (d + 1) g mx t (hclk t) h,
          minimax_terminal (d + 1) g mx h, mmCount_terminal (d + 1) g mx h]
      · cases mx with
        | true =>
            rw [minimaxT_succ_max clock thr d g t (hclk t) h, minimax_succ_max d g h,
              mmCount_succ_max d g h]
            have hgood : ∀ p ∈ g.succ, ∀ t1 : ℕ,
                (minimaxT clock thr d p.2 false t1).map (fun r => (r.1.1, r.2))
                  = .ok ((minimax d p.2 false).1, t1 + mmCount d p.2 false) := by
              intro p _ t1
              rw [ih p.2 false t1]
              rfl
            rw [mmMaxLoopT_good _ (fun s => (minimax d s false).1) (fun s => mmCount d s false)
              g.succ (⊥, none) (t + 1) hgood, ← Nat.add_assoc]
        | false =>
            rw [minimaxT_succ_min clock thr d g t (hclk t) h, minimax_succ_min d g h,
              mmCount_succ_min d g h]
            have hgood : ∀ p ∈ g.succ, ∀ t1 : ℕ,
                (minimaxT clock thr d p.2 true t1).map (fun r => (r.1.1, r.2))
                  = .ok ((minimax d p.2 true).1, t1 + mmCount d p.2 true) := by
              intro p _ t1
              rw [ih p.2 true t1]
              rfl
            rw [mmMinLoopT_good _ (fun s => (minimax d s true).1) (fun s => mmCount d s true)
              g.succ (⊤, none) (t + 1) hgood, ← Nat.add_assoc]

theorem alphabetaT_good (clock : ℕ → ℚ) (thr : ℚ) (hclk : ∀ n, ¬ clock n < thr) :
    ∀ (d : ℕ) (g : GameState) (a b : Score) (mx : Bool) (t : ℕ),
      alphabetaT clock thr d g a b mx t = .ok (alphabeta d g a b mx, t + abCount d g a b mx) := by
  intro d
  induction d with
  | zero =>
      intro g a b mx t
      by_cases h : g.succ = []
      · rw [alphabetaT_terminal clock thr 0 g a b mx t (hclk t) h,
          alphabeta_terminal 0 g a b mx h, abCount_terminal 0 g a b mx h]
      · rw [alphabetaT_zero clock thr g a b mx t (hclk t) h, alphabeta_zero g a b mx h,
          abCount_zero g a b mx h]
  | succ d ih =>
      intro g a b mx t
      by_cases h : g.succ = []
      · rw [alphabetaT_terminal clock thr (d + 1) g a b mx t (hclk t) h,
          alphabeta_terminal (d + 1) g a b mx h, abCount_terminal (d + 1) g a b mx h]
      · cases mx with
        | true =>
            rw [alphabetaT_succ_max clock thr d g a b t (hclk t) h,
              alphabeta_succ_max d g a b h, abCount_succ_max d g a b h]
            have hgood : ∀ p ∈ g.succ, ∀ a1 b1 : Score, ∀ t1 : ℕ,
                (alphabetaT clock thr d p.2 a1 b1 false t1).map (fun r => (r.1.1, r.2))
                  = .ok ((alphabeta d p.2 a1 b1 false).1, t1 + abCount d p.2 a1 b1 false) := by
              intro p _ a1 b1 t1
              rw [ih p.2 a1 b1 false t1]
              rfl
            rw [abMaxLoopT_good _ (fun a1 b1 s => (alphabeta d s a1 b1 false).1)
              (fun a1 b1 s => abCount d s a1 b1 false) b g.succ (⊥, none) a (t + 1) hgood,
              ← Nat.add_assoc]
        | false =>
            rw [alphabetaT_succ_min clock thr d g a b t (hclk t) h,
              alphabeta_succ_min d g a b h, abCount_succ_min d g a b h]
            have hgood : ∀ p ∈ g.succ, ∀ a1 b1 : Score, ∀ t1 : ℕ,
                (alphabetaT clock thr d p.2 a1 b1 true t1).map (fun r => (r.1.1, r.2))
                  = .ok ((alphabeta d p.2 a1 b1 true).1, t1 + abCount d p.2 a1 b1 true) := by
              intro p _ a1 b1 t1
              rw [ih p.2 a1 b1 true t1]
              rfl
            rw [abMinLoopT_good _ (fun a1 b1 s => (alphabeta d s a1 b1 true).1)
              (fun a1 b1 s => abCount d s a1 b1 true) a g.succ (⊤, none) b (t + 1) hgood,
              ← Nat.add_assoc]

theorem mmMaxLoopT_ok (f : ℕ → GameState → Except Timeout (Score × ℕ)) (fp : GameState → Score) :
    ∀ (l : List (Move × GameState)) (best : Score × Option Move) (t : ℕ)
      (r : Score × Option Move) (t2 : ℕ),
      (∀ p ∈ l, ∀ (t1 : ℕ) (sc : Score) (t3 : ℕ), f t1 p.2 = .ok (sc, t3) → sc = fp p.2) →
      mmMaxLoopT f l best t = .ok (r, t2) → r = mmMaxLoop fp l best := by
  intro l
  induction l with
  | nil =>
      intro best t r t2 _ h
      simp only [mmMaxLoopT, Except.ok.injEq, Prod.mk.injEq] at h
      rw [mmMaxLoop_nil]
      exact h.1.symm
  | cons p rest ih =>
      intro best t r t2 hok h
      rw [mmMaxLoop_cons]
      cases hm : f t p.2 with
      | error e =>
          simp only [mmMaxLoopT, hm] at h
          exact absurd h (by simp)
      | ok st =>
          obtain ⟨sc, t1⟩ := st
          have hsc : sc = fp p.2 := hok p (List.mem_cons_self p rest) t sc t1 hm
          subst hsc
          simp only [mmMaxLoopT, hm] at h
          exact ih _ t1 r t2 (fun q hq => hok q (List.mem_cons_of_mem p hq)) h

theorem mmMinLoopT_ok (f : ℕ → GameState → Except Timeout (Score × ℕ)) (fp : GameState → Score) :
    ∀ (l : List (Move × GameState)) (best : Score × Option Move) (t : ℕ)
      (r : Score × Option Move) (t2 : ℕ),
      (∀ p ∈ l, ∀ (t1 : ℕ) (sc : Score) (t3 : ℕ), f t1 p.2 = .ok (sc, t3) → sc = fp p.2) →
      mmMinLoopT f l best t = .ok (r, t2) → r = mmMinLoop fp l best := by
  intro l
  induction l with
  | nil =>
      intro best t r t2 _ h
      simp only [mmMinLoopT, Except.ok.injEq, Prod.mk.injEq] at h
      rw [mmMinLoop_nil]
      exact h.1.symm
  | cons p rest ih =>
      intro best t r t2 hok h
      rw [mmMinLoop_cons]
      cases hm : f t p.2 with
      | error e =>
          simp only [mmMinLoopT, hm] at h
          exact absurd h (by simp)
      | ok st =>
          obtain ⟨sc, t1⟩ := st
          have hsc : sc = fp p.2 := hok p (List.mem_cons_self p rest) t sc t1 hm
          subst hsc
          simp only [mmMinLoopT, hm] at h
          exact ih _ t1 r t2 (fun q hq => hok q (List.mem_cons_of_mem p hq)) h

theorem abMaxLoopT_ok (f : Score → Score → ℕ → GameState → Except Timeout (Score × ℕ))
    (fp : Score → Score → GameState → Score) (beta : Score) :
    ∀ (l : List (Move × GameState)) (best : Score × Option Move) (alpha : Score) (t : ℕ)
      (r : Score × Option Move) (t2 : ℕ),
      (∀ p ∈ l, ∀ (a1 b1 : Score) (t1 : ℕ) (sc : Score) (t3 : ℕ),
        f a1 b1 t1 p.2 = .ok (sc, t3) → sc = fp a1 b1 p.2) →
      abMaxLoopT f beta l best alpha t = .ok (r, t2) → r = abMaxLoop fp beta l best alpha := by
  intro l
  induction l with
  | nil =>
      intro best alpha t r t2 _ h
      simp only [abMaxLoopT, Except.ok.injEq, Prod.mk.injEq] at h
      rw [abMaxLoop_nil]
      exact h.1.symm
  | cons p rest ih =>
      intro best alpha t r t2 hok h
      cases hm : f alpha beta t p.2 with
      | error e =>
          simp only [abMaxLoopT, hm] at h
          exact absurd h (by simp)
      | ok st =>
          obtain ⟨sc, t1⟩ := st
          have hsc : sc = fp alpha beta p.2 := hok p (List.mem_cons_self p rest) alpha beta t sc t1 hm
          subst hsc
          simp only [abMaxLoopT, hm] at h
          simp only [abMaxLoop]
          by_cases hpr : beta ≤ (if best.1 < fp alpha beta p.2
              then (fp alpha beta p.2, some p.1) else best).1
          · rw [if_pos hpr] at h ⊢
            simp only [Except.ok.injEq, Prod.mk.injEq] at h
            exact h.1.symm
          · rw [if_neg hpr] at h ⊢
            exact ih _ _ t1 r t2 (fun q hq => hok q (List.mem_cons_of_mem p hq)) h

theorem abMinLoopT_ok (f : Score → Score → ℕ → GameState → Except Timeout (Score × ℕ))
    (fp : Score → Score → GameState → Score) (alpha : Score) :
    ∀ (l : List (Move × GameState)) (best : Score × Option Move) (beta : Score) (t : ℕ)
      (r : Score × Option Move) (t2 : ℕ),
      (∀ p ∈ l, ∀ (a1 b1 : Score) (t1 : ℕ) (sc : Score) (t3 : ℕ),
        f a1 b1 t1 p.2 = .ok (sc, t3) → sc = fp a1 b1 p.2) →
      abMinLoopT f alpha l best beta t = .ok (r, t2) → r = abMinLoop fp alpha l best beta := by
  intro l
  induction l with
  | nil =>
      intro best beta t r t2 _ h
      simp only [abMinLoopT, Except.ok.injEq, Prod.mk.injEq] at h
      rw [abMinLoop_nil]
      exact h.1.symm
  | cons p rest ih =>
      intro best beta t r t2 hok h
      cases hm : f alpha beta t p.2 with
      | error e =>
          simp only [abMinLoopT, hm] at h
          exact absurd h (by simp)
      | ok st =>
          obtain ⟨sc, t1⟩ := st
          have hsc : sc = fp alpha beta p.2 := hok p (List.mem_cons_self p rest) alpha beta t sc t1 hm
          subst hsc
          simp only [abMinLoopT, hm] at h
          simp only [abMinLoop]
          by_cases hpr : (if fp alpha beta p.2 < best.1
              then (fp alpha beta p.2, some p.1) else best).1 ≤ alpha
          · rw [if_pos hpr] at h ⊢
            simp only [Except.ok.injEq, Prod.mk.injEq] at h
            exact h.1.symm
          · rw [if_neg hpr] at h ⊢
            exact ih _ _ t1 r t2 (fun q hq => hok q (List.mem_cons_of_mem p hq)) h

theorem minimaxT_ok (clock : ℕ → ℚ) (thr : ℚ) :
    ∀ (d : ℕ) (g : GameState) (mx : Bool) (t : ℕ) (r : Score × Option Move) (t2 : ℕ),
      minimaxT clock thr d g mx t = .ok (r, t2) → r = minimax d g mx := by
  intro d
  induction d with
  | zero =>
      intro g mx t r t2 h
      by_cases hcl : clock t < thr
      · rw [minimaxT_timeout clock thr 0 g mx t hcl] at h
        exact absurd h (by simp)
      · by_cases hg : g.succ = []
        · rw [minimaxT_terminal clock thr 0 g mx t hcl hg] at h
          rw [minimax_terminal 0 g mx hg]
          simp only [Except.ok.injEq, Prod.mk.injEq] at h
          exact h.1.symm
        · rw [minimaxT_zero clock thr g mx t hcl hg] at h
          rw [minimax_zero g mx hg]
          simp only [Except.ok.injEq, Prod.mk.injEq] at h
          exact h.1.symm
  | succ d ih =>
      intro g mx t r t2 h
      by_cases hcl : clock t < thr
      · rw [minimaxT_timeout clock thr (d + 1) g mx t hcl] at h
        exact absurd h (by simp)
      · by_cases hg : g.succ = []
        · rw [minimaxT_terminal clock thr (d + 1) g mx t hcl hg] at h
          rw [minimax_terminal (d + 1) g mx hg]
          simp only [Except.ok.injEq, Prod.mk.injEq] at h
          exact h.1.symm
        · have hch : ∀ mx1 : Bool, ∀ p ∈ g.succ, ∀ (t1 : ℕ) (sc : Score) (t3 : ℕ),
              (minimaxT clock thr d p.2 mx1 t1).map (fun r => (r.1.1, r.2)) = .ok (sc, t3)
                → sc = (minimax d p.2 mx1).1 := by
            intro mx1 q _ t1 sc t3 hq
            cases hm : minimaxT clock thr d q.2 mx1 t1 with
            | error e => rw [hm] at hq; simp [Except.map] at hq
            | ok pr =>
                rw [hm] at hq
                simp only [Except.map, Except.ok.injEq, Prod.mk.injEq] at hq
                rw [← hq.1, ih q.2 mx1 t1 pr.1 pr.2 (by rw [hm])]
          cases mx with
          | true =>
              rw [minimaxT_succ_max clock thr d g t hcl hg] at h
              rw [minimax_succ_max d g hg]
              exact mmMaxLoopT_ok _ (fun s => (minimax d s false).1) g.succ (⊥, none)
                (t + 1) r t2 (hch false) h
          | false =>
              rw [minimaxT_succ_min clock thr d g t hcl hg] at h
              rw [minimax_succ_min d g hg]
              exact mmMinLoopT_ok _ (fun s => (minimax d s true).1) g.succ (⊤, none)
                (t + 1) r t2 (hch true) h

theorem alphabetaT_ok (clock : ℕ → ℚ) (thr : ℚ) :
    ∀ (d : ℕ) (g : GameState) (a b : Score) (mx : Bool) (t : ℕ) (r : Score × Option Move) (t2 : ℕ),
      alphabetaT clock thr d g a b mx t = .ok (r, t2) → r = alphabeta d g a b mx := by
  intro d
  induction d with
  | zero =>
      intro g a b mx t r t2 h
      by_cases hcl : clock t < thr
      · rw [alphabetaT_timeout clock thr 0 g a b mx t hcl] at h
        exact absurd h (by simp)
      · by_cases hg : g.succ = []
        · rw [alphabetaT_terminal clock thr 0 g a b mx t hcl hg] at h
          rw [alphabeta_terminal 0 g a b mx hg]
          simp only [Except.ok.injEq, Prod.mk.injEq] at h
          exact h.1.symm
        · rw [alphabetaT_zero clock thr g a b mx t hcl hg] at h
          rw [alphabeta_zero g a b mx hg]
          simp only [Except.ok.injEq, Prod.mk.injEq] at h
          exact h.1.symm
  | succ d ih =>
      intro g a b mx t r t2 h
      by_cases hcl : clock t < thr
      · rw [alphabetaT_timeout clock thr (d + 1) g a b mx t hcl] at h
        exact absurd h (by simp)
      · by_cases hg : g.succ = []
        · rw [alphabetaT_terminal clock thr (d + 1) g a b mx t hcl hg] at h
          rw [alphabeta_terminal (d + 1) g a b mx hg]
          simp only [Except.ok.injEq, Prod.mk.injEq] at h
          exact h.1.symm
        · have hch : ∀ mx1 : Bool, ∀ p ∈ g.succ, ∀ (a1 b1 : Score) (t1 : ℕ) (sc : Score) (t3 : ℕ),
              (alphabetaT clock thr d p.2 a1 b1 mx1 t1).map (fun r => (r.1.1, r.2)) = .ok (sc, t3)
                → sc = (alphabeta d p.2 a1 b1 mx1).1 := by
            intro mx1 q _ a1 b1 t1 sc t3 hq
            cases hm : alphabetaT clock thr d q.2 a1 b1 mx1 t1 with
            | error e => rw [hm] at hq; simp [Except.map] at hq
            | ok pr =>
                rw [hm] at hq
                simp only [Except.map, Except.ok.injEq, Prod.mk.injEq] at hq
                rw [← hq.1, ih q.2 a1 b1 mx1 t1 pr.1 pr.2 (by rw [hm])]
          cases mx with
          | true =>
              rw [alphabetaT_succ_max clock thr d g a b t hcl hg] at h
              rw [alphabeta_succ_max d g a b hg]
              exact abMaxLoopT_ok _ (fun a1 b1 s => (alphabeta d s a1 b1 false).1) b g.succ
                (⊥, none) a (t + 1) r t2 (hch false) h
          | false =>
              rw [alphabetaT_succ_min clock thr d g a b t hcl hg] at h
              rw [alphabeta_succ_min d g a b hg]
              exact abMinLoopT_ok _ (fun a1 b1 s => (alphabeta d s a1 b1 true).1) a g.succ
                (⊤, none) b (t + 1) r t2 (hch true) h

theorem idLoop_zero (s : ℕ → ℕ → Except Timeout ((Score × Option Move) × ℕ))
    (d : ℕ) (r : Option Move) (t : ℕ) : idLoop s 0 d r t = r := rfl

theorem idLoop_succ_err (s : ℕ → ℕ → Except Timeout ((Score × Option Move) × ℕ))
    (fuel d : ℕ) (r : Option Move) (t : ℕ) (e : Timeout) (h : s t d = .error e) :
    idLoop s (fuel + 1) d r t = r := by
  simp only [idLoop, h]

theorem idLoop_succ_ok (s : ℕ → ℕ → Except Timeout ((Score × Option Move) × ℕ))
    (fuel d : ℕ) (r : Option Move) (t : ℕ) (r1 : Score × Option Move) (t1 : ℕ)
    (h : s t d = .ok (r1, t1)) :
    idLoop s (fuel + 1) d r t = idLoop s fuel (d + 1) r1.2 t1 := by
  simp only [idLoop, h]

theorem idLoop_spec (s : ℕ → ℕ → Except Timeout ((Score × Option Move) × ℕ))
    (pv : ℕ → Score × Option Move)
    (hok : ∀ (t d : ℕ) (r : Score × Option Move) (t1 : ℕ), s t d = .ok (r, t1) → r = pv d) :
    ∀ (fuel d0 : ℕ) (r0 : Option Move) (t0 : ℕ),
      ∃ n, n ≤ fuel ∧ ∃ ts : ℕ → ℕ, ts 0 = t0 ∧
        (∀ i, i < n → s (ts i) (d0 + i) = .ok (pv (d0 + i), ts (i + 1))) ∧
        (n = fuel ∨ ∃ e, s (ts n) (d0 + n) = .error e) ∧
        idLoop s fuel d0 r0 t0 = (if n = 0 then r0 else (pv (d0 + n - 1)).2) := by
  intro fuel
  induction fuel with
  | zero =>
      intro d0 r0 t0
      exact ⟨0, le_refl 0, fun _ => t0, rfl, fun i hi => absurd hi (Nat.not_lt_zero i),
        Or.inl rfl, rfl⟩
  | succ fuel ih =>
      intro d0 r0 t0
      cases hs : s t0 d0 with
      | error e =>
          refine ⟨0, Nat.zero_le _, fun _ => t0, rfl,
            fun i hi => absurd hi (Nat.not_lt_zero i), Or.inr ⟨e, ?_⟩, ?_⟩
          · simpa using hs
          · rw [idLoop_succ_err s fuel d0 r0 t0 e hs]
            simp
      | ok pr =>
          obtain ⟨r1, t1⟩ := pr
          have hr1 : r1 = pv d0 := hok t0 d0 r1 t1 hs
          obtain ⟨n, hn, ts, hts0, hcomp, hterm, hres⟩ := ih (d0 + 1) r1.2 t1
          refine ⟨n + 1, Nat.succ_le_succ hn,
            fun i => match i with | 0 => t0 | i + 1 => ts i, rfl, ?_, ?_, ?_⟩
          · intro i hi
            cases i with
            | zero =>
                show s t0 (d0 + 0) = .ok (pv (d0 + 0), ts 0)
                simp only [Nat.add_zero]
                rw [hts0, ← hr1]
                exact hs
            | succ i =>
                have hi1 : i < n := Nat.lt_of_succ_lt_succ hi
                have hstep := hcomp i hi1
                show s (ts i) (d0 + (i + 1)) = .ok (pv (d0 + (i + 1)), ts (i + 1))
                have harith : d0 + (i + 1) = (d0 + 1) + i := by omega
                rw [harith]
                exact hstep
          · rcases hterm with hfull | ⟨e, he⟩
            · exact Or.inl (by rw [hfull])
            · refine Or.inr ⟨e, ?_⟩
              show s (ts n) (d0 + (n + 1)) = .error e
              have harith : d0 + (n + 1) = (d0 + 1) + n := by omega
              rw [harith]
              exact he
          · rw [idLoop_succ_ok s fuel d0 r0 t0 r1 t1 hs, hres]
            cases n with
            | zero =>
                simp [hr1]
            | succ k =>
                rw [if_neg (Nat.succ_ne_zero k), if_neg (Nat.succ_ne_zero (k + 1))]
                have harith : (d0 + 1) + (k + 1) - 1 = d0 + (k + 1 + 1) - 1 := by omega
                rw [harith]

theorem get_move_no_moves (p : CustomPlayer) (g : GameState) (clock : ℕ → ℚ) :
    get_move p g [] clock = some (-1, -1) := rfl

theorem get_move_iterative_minimax (sd : ℕ) (thr : ℚ) (g : GameState) (legal : List Move)
    (clock : ℕ → ℚ) (h : legal ≠ []) :
    get_move ⟨sd, true, "minimax", thr⟩ g legal clock
      = idLoop (fun t d => minimaxT clock thr d g true t) sysMaxsize 0 none 0 := by
  simp [get_move, h]

theorem get_move_iterative_alphabeta (sd : ℕ) (thr : ℚ) (g : GameState) (legal : List Move)
    (clock : ℕ → ℚ) (h : legal ≠ []) :
    get_move ⟨sd, true, "alphabeta", thr⟩ g legal clock
      = idLoop (fun t d => alphabetaT clock thr d g ⊥ ⊤ true t) sysMaxsize 0 none 0 := by
  simp [get_move, h]

theorem get_move_fixed_minimax (sd : ℕ) (thr : ℚ) (g : GameState) (legal : List Move)
    (clock : ℕ → ℚ) (h : legal ≠ []) :
    get_move ⟨sd, false, "minimax", thr⟩ g legal clock
      = (match minimaxT clock thr sd g true 0 with
         | .error _ => none
         | .ok (r, _) => r.2) := by
  simp [get_move, h]

theorem get_move_fixed_alphabeta (sd : ℕ) (thr : ℚ) (g : GameState) (legal : List Move)
    (clock : ℕ → ℚ) (h : legal ≠ []) :
    get_move ⟨sd, false, "alphabeta", thr⟩ g legal clock
      = (match alphabetaT clock thr sd g ⊥ ⊤ true 0 with
         | .error _ => none
         | .ok (r, _) => r.2) := by
  simp [get_move, h]

theorem Score.neg_fin (q : ℚ) : Score.neg (Score.fin q) = Score.fin (-q) := rfl

theorem minimax_all_bot (d : ℕ) (g : GameState) (h : g.succ ≠ [])
    (hall : ∀ p ∈ g.succ, (minimax d p.2 false).1 = ⊥) :
    minimax (d + 1) g true = (⊥, none) := by
  rw [minimax_succ_max d g h]
  exact mmMaxLoop_of_forall_le _ g.succ ⊥ none (fun p hp => le_of_eq (hall p hp))

theorem minimax_all_top (d : ℕ) (g : GameState) (h : g.succ ≠ [])
    (hall : ∀ p ∈ g.succ, (minimax d p.2 true).1 = ⊤) :
    minimax (d + 1) g false = (⊤, none) := by
  rw [minimax_succ_min d g h]
  exact mmMinLoop_of_forall_le _ g.succ ⊤ none (fun p hp => le_of_eq (hall p hp).symm)

theorem abMaxLoop_all_bot (f : Score → Score → GameState → Score) (beta : Score) :
    ∀ (l : List (Move × GameState)) (alpha : Score),
      (∀ p ∈ l, ∀ a1 b1 : Score, f a1 b1 p.2 = ⊥) →
      abMaxLoop f beta l (⊥, none) alpha = (⊥, none) := by
  intro l
  induction l with
  | nil => intro alpha _; rfl
  | cons p rest ih =>
      intro alpha hall
      rw [abMaxLoop_cons_eq, hall p (List.mem_cons_self p rest) alpha beta]
      simp only [max_self, lt_self_iff_false, if_false]
      by_cases hpr : beta ≤ (⊥ : Score)
      · rw [if_pos hpr]
      · rw [if_neg hpr, max_eq_left bot_le]
        exact ih alpha (fun q hq => hall q (List.mem_cons_of_mem p hq))

theorem abMinLoop_all_top (f : Score → Score → GameState → Score) (alpha : Score) :
    ∀ (l : List (Move × GameState)) (beta : Score),
      (∀ p ∈ l, ∀ a1 b1 : Score, f a1 b1 p.2 = ⊤) →
      abMinLoop f alpha l (⊤, none) beta = (⊤, none) := by
  intro l
  induction l with
  | nil => intro beta _; rfl
  | cons p rest ih =>
      intro beta hall
      rw [abMinLoop_cons_eq, hall p (List.mem_cons_self p rest) alpha beta]
      simp only [min_self, lt_self_iff_false, if_false]
      by_cases hpr : (⊤ : Score) ≤ alpha
      · rw [if_pos hpr]
      · rw [if_neg hpr, min_eq_left le_top]
        exact ih beta (fun q hq => hall q (List.mem_cons_of_mem p hq))

theorem alphabeta_all_bot (d : ℕ) (g : GameState) (a b : Score) (h : g.succ ≠ [])
    (hall : ∀ p ∈ g.succ, ∀ a1 b1 : Score, (alphabeta d p.2 a1 b1 false).1 = ⊥) :
    alphabeta (d + 1) g a b true = (⊥, none) := by
  rw [alphabeta_succ_max d g a b h]
  exact abMaxLoop_all_bot _ b g.succ a (fun p hp a1 b1 => hall p hp a1 b1)

theorem alphabeta_all_top (d : ℕ) (g : GameState) (a b : Score) (h : g.succ ≠ [])
    (hall : ∀ p ∈ g.succ, ∀ a1 b1 : Score, (alphabeta d p.2 a1 b1 true).1 = ⊤) :
    alphabeta (d + 1) g a b false = (⊤, none) := by
  rw [alphabeta_succ_min d g a b h]
  exact abMinLoop_all_top _ a g.succ b (fun p hp a1 b1 => hall p hp a1 b1)

/-- C2: for every state, depth and evaluator, `alphabeta` called with the root
window `alpha = -inf`, `beta = +inf` returns the same root score as exhaustive
`minimax` at the same depth, and visits at most as many nodes. -/
theorem alphabeta_minimax_root_equivalence :
    ∀ (d : ℕ) (g : GameState) (mx : Bool),
      (alphabeta d g ⊥ ⊤ mx).1 = (minimax d g mx).1 ∧
      abCount d g ⊥ ⊤ mx ≤ mmCount d g mx :=
  fun d g mx => ⟨by rw [alphabeta_root_eq], abCount_le_mmCount d g ⊥ ⊤ mx⟩

/-- C4: for any state whose player to move has no legal moves, `minimax` and
`alphabeta` both return the state's terminal utility for the fixed evaluating
player paired with the `(-1, -1)` sentinel, for every requested depth (in
particular depth 0, so the terminal test precedes the depth cutoff and the
heuristic is never consulted). -/
theorem terminal_state_utility :
    ∀ (d : ℕ) (g : GameState) (a b : Score) (mx : Bool), g.succ = [] →
      minimax d g mx = (g.utility, some (-1, -1)) ∧
      alphabeta d g a b mx = (g.utility, some (-1, -1)) :=
  fun d g a b mx h => ⟨minimax_terminal d g mx h, alphabeta_terminal d g a b mx h⟩

/-- Witness for C4 on the concrete terminal state `gTerm`, whose utility `-inf`
differs from its evaluator value 3, at depths 5 and 7. -/
theorem terminal_state_utility_witness :
    minimax 5 gTerm true = (gTerm.utility, some (-1, -1)) ∧
    alphabeta 7 gTerm (Score.fin 0) (Score.fin 1) false = (gTerm.utility, some (-1, -1)) :=
  ⟨(terminal_state_utility 5 gTerm (Score.fin 0) (Score.fin 1) true rfl).1,
   (terminal_state_utility 7 gTerm (Score.fin 0) (Score.fin 1) false rfl).2⟩

/-- C7: for every non-terminal state, `minimax` and `alphabeta` at depth 0
return exactly the configured evaluator's score for the fixed player, paired
with the `(-1, -1)` sentinel. -/
theorem depth_zero_evaluator :
    ∀ (g : GameState) (a b : Score) (mx : Bool), g.succ ≠ [] →
      minimax 0 g mx = (g.score, some (-1, -1)) ∧
      alphabeta 0 g a b mx = (g.score, some (-1, -1)) :=
  fun g a b mx h => ⟨minimax_zero g mx h, alphabeta_zero g a b mx h⟩

/-- Witness for C7 on the concrete non-terminal state `gA`. -/
theorem depth_zero_evaluator_witness :
    minimax 0 gA true = (gA.score, some (-1, -1)) ∧
    alphabeta 0 gA ⊥ ⊤ true = (gA.score, some (-1, -1)) :=
  ⟨(depth_zero_evaluator gA ⊥ ⊤ true (List.cons_ne_nil _ _)).1,
   (depth_zero_evaluator gA ⊥ ⊤ true (List.cons_ne_nil _ _)).2⟩

/-- C8: whenever neither player has won or lost, the mobility heuristic is
antisymmetric between the two players. -/
theorem heuristic1_sign_law :
    ∀ (game : Board) (player : PlayerId),
      game.is_winner player = false → game.is_loser player = false →
      game.is_winner player.get_opponent = false → game.is_loser player.get_opponent = false →
      heuristic1 game player = Score.neg (heuristic1 game player.get_opponent) := by
  intro game player hw hl hw2 hl2
  have hopp : player.get_opponent.get_opponent = player := by
    cases player <;> rfl
  simp only [heuristic1, hw, hl, hw2, hl2, hopp, Bool.false_eq_true, if_false]
  rw [Score.neg_fin]
  congr 1
  ring

/-- Witness for C8 on the concrete board `bC8` (3 moves vs 1 move). -/
theorem heuristic1_sign_law_witness :
    heuristic1 bC8 PlayerId.one = Score.neg (heuristic1 bC8 PlayerId.one.get_opponent) ∧
    heuristic1 bC8 PlayerId.one = Score.fin 2 :=
  ⟨heuristic1_sign_law bC8 PlayerId.one rfl rfl rfl rfl,
   by norm_num [heuristic1, bC8, PlayerId.get_opponent, Score.fin]⟩

/-- C9: at a maximizing layer whose every legal move's recursive score is
`-inf`, `minimax` and `alphabeta` return `(-inf, None)` — the move component
is Python `None`, not a legal move and not the `(-1, -1)` sentinel — because
the strict `>` comparison never replaces the initial best; symmetrically at a
minimizing layer with `+inf`; consequently fixed-depth `get_move` can return
`None` for a state that has legal moves. -/
theorem all_losing_children_none_move :
    (∀ (d : ℕ) (g : GameState), g.succ ≠ [] →
      (∀ p ∈ g.succ, (minimax d p.2 false).1 = ⊥) →
      minimax (d + 1) g true = (⊥, none)) ∧
    (∀ (d : ℕ) (g : GameState) (a b : Score), g.succ ≠ [] →
      (∀ p ∈ g.succ, ∀ a1 b1 : Score, (alphabeta d p.2 a1 b1 false).1 = ⊥) →
      alphabeta (d + 1) g a b true = (⊥, none)) ∧
    (∀ (d : ℕ) (g : GameState), g.succ ≠ [] →
      (∀ p ∈ g.succ, (minimax d p.2 true).1 = ⊤) →
      minimax (d + 1) g false = (⊤, none)) ∧
    (∀ (d : ℕ) (g : GameState) (a b : Score), g.succ ≠ [] →
      (∀ p ∈ g.succ, ∀ a1 b1 : Score, (alphabeta d p.2 a1 b1 true).1 = ⊤) →
      alphabeta (d + 1) g a b false = (⊤, none)) ∧
    (∀ (d : ℕ) (thr : ℚ) (clock : ℕ → ℚ) (g : GameState) (legal : List Move),
      legal ≠ [] → g.succ ≠ [] → (∀ n, ¬ clock n < thr) →
      (∀ p ∈ g.succ, (minimax d p.2 false).1 = ⊥) →
      get_move ⟨d + 1, false, "minimax", thr⟩ g legal clock = none) := by
  refine ⟨minimax_all_bot, alphabeta_all_bot, minimax_all_top, alphabeta_all_top, ?_⟩
  intro d thr clock g legal hleg hg hclk hall
  rw [get_move_fixed_minimax (d + 1) thr g legal clock hleg,
    minimaxT_good clock thr hclk (d + 1) g true 0, minimax_all_bot d g hg hall]

/-- Witness for C9 on the concrete state `gLoss`, whose two successors are
both terminal losses. -/
theorem all_losing_children_none_move_witness :
    minimax 1 gLoss true = (⊥, none) ∧
    alphabeta 1 gLoss ⊥ ⊤ true = (⊥, none) ∧
    get_move ⟨1, false, "minimax", 10⟩ gLoss [(0, 0), (1, 1)] clockHi = none :=
  ⟨all_losing_children_none_move.1 0 gLoss (List.cons_ne_nil _ _) (by decide),
   all_losing_children_none_move.2.1 0 gLoss ⊥ ⊤ (List.cons_ne_nil _ _)
     (by
       intro p hp a1 b1
       have hcases : p = ((0, 0), GameState.node ⊥ ⊥ []) ∨ p = ((1, 1), GameState.node ⊥ ⊥ []) := by
         simpa [gLoss, GameState.succ] using hp
       rcases hcases with rfl | rfl <;>
         · rw [alphabeta_terminal 0 (GameState.node ⊥ ⊥ []) a1 b1 false rfl]
           rfl),
   all_losing_children_none_move.2.2.2.2 0 10 clockHi gLoss [(0, 0), (1, 1)]
     (List.cons_ne_nil _ _) (List.cons_ne_nil _ _) (fun n => by norm_num [clockHi])
     (by decide)⟩

/-- C5: the `Timeout` exception is raised only by the entry time check of the
recursive search calls — with a clock that never falls below the threshold a
search call always completes normally with the untimed result (first two
conjuncts) — it is raised exactly when the entry query falls below the
threshold (next two conjuncts), it propagates out of the entire call
unwinding every recursive frame (the whole call returns the error), and it is
caught exactly once at the `get_move` boundary, which converts it into
returning the remembered last fully completed result — `None` when
cancellation precedes any completed search (last conjunct). -/
theorem timeout_raise_propagate_catch :
    (∀ (clock : ℕ → ℚ) (thr : ℚ) (d : ℕ) (g : GameState) (mx : Bool) (t : ℕ),
      (∀ n, ¬ clock n < thr) →
      minimaxT clock thr d g mx t = .ok (minimax d g mx, t + mmCount d g mx)) ∧
    (∀ (clock : ℕ → ℚ) (thr : ℚ) (d : ℕ) (g : GameState) (a b : Score) (mx : Bool) (t : ℕ),
      (∀ n, ¬ clock n < thr) →
      alphabetaT clock thr d g a b mx t = .ok (alphabeta d g a b mx, t + abCount d g a b mx)) ∧
    (∀ (clock : ℕ → ℚ) (thr : ℚ) (d : ℕ) (g : GameState) (mx : Bool) (t : ℕ),
      clock t < thr → minimaxT clock thr d g mx t = .error .mk) ∧
    (∀ (clock : ℕ → ℚ) (thr : ℚ) (d : ℕ) (g : GameState) (a b : Score) (mx : Bool) (t : ℕ),
      clock t < thr → alphabetaT clock thr d g a b mx t = .error .mk) ∧
    (∀ (sd : ℕ) (thr : ℚ) (clock : ℕ → ℚ) (g : GameState) (legal : List Move),
      legal ≠ [] → clock 0 < thr →
      get_move ⟨sd, false, "minimax", thr⟩ g legal clock = none ∧
      get_move ⟨sd, false, "alphabeta", thr⟩ g legal clock = none) := by
  refine ⟨fun clock thr d g mx t hclk => minimaxT_good clock thr hclk d g mx t,
    fun clock thr d g a b mx t hclk => alphabetaT_good clock thr hclk d g a b mx t,
    minimaxT_timeout, alphabetaT_timeout, ?_⟩
  intro sd thr clock g legal hleg hclk
  constructor
  · rw [get_move_fixed_minimax sd thr g legal clock hleg,
      minimaxT_timeout clock thr sd g true 0 hclk]
  · rw [get_move_fixed_alphabeta sd thr g legal clock hleg,
      alphabetaT_timeout clock thr sd g ⊥ ⊤ true 0 hclk]

/-- Witness for C5: a completed search under a permissive clock, an
entry-check `Timeout` under a depleted clock, and `get_move` converting an
immediate timeout into `None`. -/
theorem timeout_raise_propagate_catch_witness :
    minimaxT clockHi 10 1 gA true 0 = .ok (minimax 1 gA true, 0 + mmCount 1 gA true) ∧
    minimaxT clockOne 10 1 gA true 1 = .error .mk ∧
    get_move ⟨3, false, "minimax", 10⟩ gA [(0, 0)] (fun _ => 5) = none :=
  ⟨timeout_raise_propagate_catch.1 clockHi 10 1 gA true 0 (fun n => by norm_num [clockHi]),
   timeout_raise_propagate_catch.2.2.1 clockOne 10 1 gA true 1 (by norm_num [clockOne]),
   (timeout_raise_propagate_catch.2.2.2.2 3 10 (fun _ => 5) gA [(0, 0)]
     (List.cons_ne_nil _ _) (by norm_num)).1⟩

/-- C10: the first iteration of the iterative-deepening loop runs the search
at depth 0, whose returned move is the `(-1, -1)` sentinel; so whenever the
depth-0 call completes and cancellation fires during the depth-1 call,
`get_move` returns `(-1, -1)` even though the state has legal moves. -/
theorem depth_zero_sentinel_on_early_timeout :
    (∀ (sd : ℕ) (thr : ℚ) (clock : ℕ → ℚ) (g : GameState) (legal : List Move)
       (r : Score × Option Move) (t1 : ℕ),
      legal ≠ [] → g.succ ≠ [] →
      minimaxT clock thr 0 g true 0 = .ok (r, t1) →
      minimaxT clock thr 1 g true t1 = .error .mk →
      get_move ⟨sd, true, "minimax", thr⟩ g legal clock = some (-1, -1)) ∧
    (∀ (sd : ℕ) (thr : ℚ) (clock : ℕ → ℚ) (g : GameState) (legal : List Move)
       (r : Score × Option Move) (t1 : ℕ),
      legal ≠ [] → g.succ ≠ [] →
      alphabetaT clock thr 0 g ⊥ ⊤ true 0 = .ok (r, t1) →
      alphabetaT clock thr 1 g ⊥ ⊤ true t1 = .error .mk →
      get_move ⟨sd, true, "alphabeta", thr⟩ g legal clock = some (-1, -1)) := by
  constructor
  · intro sd thr clock g legal r t1 hleg hg hok herr
    rw [get_move_iterative_minimax sd thr g legal clock hleg]
    have hr : r = minimax 0 g true := minimaxT_ok clock thr 0 g true 0 r t1 hok
    have hr2 : r.2 = some (-1, -1) := by
      rw [hr, minimax_zero g true hg]
    have hfuel : sysMaxsize = 9223372036854775806 + 1 := by norm_num [sysMaxsize]
    rw [hfuel, idLoop_succ_ok _ 9223372036854775806 0 none 0 r t1 hok]
    have hfuel2 : (9223372036854775806 : ℕ) = 9223372036854775805 + 1 := by norm_num
    rw [hfuel2, idLoop_succ_err _ 9223372036854775805 (0 + 1) r.2 t1 .mk herr]
    exact hr2
  · intro sd thr clock g legal r t1 hleg hg hok herr
    rw [get_move_iterative_alphabeta sd thr g legal clock hleg]
    have hr : r = alphabeta 0 g ⊥ ⊤ true := alphabetaT_ok clock thr 0 g ⊥ ⊤ true 0 r t1 hok
    have hr2 : r.2 = some (-1, -1) := by
      rw [hr, alphabeta_zero g ⊥ ⊤ true hg]
    have hfuel : sysMaxsize = 9223372036854775806 + 1 := by norm_num [sysMaxsize]
    rw [hfuel, idLoop_succ_ok _ 9223372036854775806 0 none 0 r t1 hok]
    have hfuel2 : (9223372036854775806 : ℕ) = 9223372036854775805 + 1 := by norm_num
    rw [hfuel2, idLoop_succ_err _ 9223372036854775805 (0 + 1) r.2 t1 .mk herr]
    exact hr2

/-- Witness for C10: under `clockOne` only the first node entry passes the
time check, so the depth-0 call completes with the sentinel and the depth-1
call is cancelled; `get_move` returns `(-1, -1)` although `gA` has a legal
move. -/
theorem depth_zero_sentinel_on_early_timeout_witness :
    get_move ⟨3, true, "minimax", 10⟩ gA [(0, 0)] clockOne = some (-1, -1) :=
  depth_zero_sentinel_on_early_timeout.1 3 10 clockOne gA [(0, 0)]
    (Score.fin 5, some (-1, -1)) 1 (List.cons_ne_nil _ _) (List.cons_ne_nil _ _)
    (by decide) (by decide)

/-- C1 (amended): in iterative-deepening mode `get_move` calls the configured
search algorithm with depth bounds 0, 1, 2, ... in that order (the i-th call
at depth i, the query counter chained from call to call); each completed call
replaces the remembered move with that call's move (the depth-0 call stores
the `(-1, -1)` sentinel); the loop stops when a cancellation unwinds out of a
call (or after `sys.maxsize` iterations), and `get_move` returns the move of
the last fully completed depth — `None` if cancellation occurred before the
depth-0 call finished. -/
theorem get_move_iterative_deepening_characterization :
    ∀ (sd : ℕ) (thr : ℚ) (clock : ℕ → ℚ) (g : GameState) (legal : List Move),
      legal ≠ [] →
      (∃ n, n ≤ sysMaxsize ∧ ∃ ts : ℕ → ℕ, ts 0 = 0 ∧
        (∀ i, i < n →
          minimaxT clock thr i g true (ts i) = .ok (minimax i g true, ts (i + 1))) ∧
        (n = sysMaxsize ∨ ∃ e, minimaxT clock thr n g true (ts n) = .error e) ∧
        get_move ⟨sd, true, "minimax", thr⟩ g legal clock
          = (if n = 0 then none else (minimax (n - 1) g true).2)) ∧
      (∃ n, n ≤ sysMaxsize ∧ ∃ ts : ℕ → ℕ, ts 0 = 0 ∧
        (∀ i, i < n →
          alphabetaT clock thr i g ⊥ ⊤ true (ts i) = .ok (alphabeta i g ⊥ ⊤ true, ts (i + 1))) ∧
        (n = sysMaxsize ∨ ∃ e, alphabetaT clock thr n g ⊥ ⊤ true (ts n) = .error e) ∧
        get_move ⟨sd, true, "alphabeta", thr⟩ g legal clock
          = (if n = 0 then none else (alphabeta (n - 1) g ⊥ ⊤ true).2)) := by
  intro sd thr clock g legal hleg
  constructor
  · obtain ⟨n, hn, ts, hts0, hcomp, hterm, hres⟩ :=
      idLoop_spec (fun t d => minimaxT clock thr d g true t) (fun d => minimax d g true)
        (fun t d r t1 h => minimaxT_ok clock thr d g true t r t1 h) sysMaxsize 0 none 0
    refine ⟨n, hn, ts, hts0, ?_, ?_, ?_⟩
    · intro i hi
      simpa using hcomp i hi
    · rcases hterm with h | ⟨e, he⟩
      · exact Or.inl h
      · exact Or.inr ⟨e, by simpa using he⟩
    · rw [get_move_iterative_minimax sd thr g legal clock hleg, hres]
      simp only [Nat.zero_add]
  · obtain ⟨n, hn, ts, hts0, hcomp, hterm, hres⟩ :=
      idLoop_spec (fun t d => alphabetaT clock thr d g ⊥ ⊤ true t)
        (fun d => alphabeta d g ⊥ ⊤ true)
        (fun t d r t1 h => alphabetaT_ok clock thr d g ⊥ ⊤ true t r t1 h) sysMaxsize 0 none 0
    refine ⟨n, hn, ts, hts0, ?_, ?_, ?_⟩
    · intro i hi
      simpa using hcomp i hi
    · rcases hterm with h | ⟨e, he⟩
      · exact Or.inl h
      · exact Or.inr ⟨e, by simpa using he⟩
    · rw [get_move_iterative_alphabeta sd thr g legal clock hleg, hres]
      simp only [Nat.zero_add]

/-- Counterexample to C1 as stated: under `clockOne` only the very first node
entry passes the time check.  Had the deepening loop started at depth 1 as
the claim says, that depth-1 call would have been cancelled (first conjunct),
leaving the remembered `None`; and a completed depth-1 call would instead
return the legal move `(0, 0)` (second conjunct).  The code actually returns
`some (-1, -1)` (third conjunct), the sentinel stored by the completed
depth-0 call — a value neither `None` nor any legal move's result, so the
depth sequence cannot begin at 1. -/
theorem get_move_iterative_deepening_cex :
    minimaxT clockOne 10 1 gA true 0 = .error .mk ∧
    minimax 1 gA true = (Score.fin 2, some (0, 0)) ∧
    get_move ⟨3, true, "minimax", 10⟩ gA [(0, 0)] clockOne = some (-1, -1) ∧
    some ((-1, -1) : Move) ≠ none ∧ some ((-1, -1) : Move) ≠ some ((0, 0) : Move) := by
  refine ⟨by decide, by decide, by decide, by decide, by decide⟩

/-- Witness for C1 (amended) at the concrete clock `clockOne` and state
`gA`. -/
theorem get_move_iterative_deepening_witness :
    (∃ n, n ≤ sysMaxsize ∧ ∃ ts : ℕ → ℕ, ts 0 = 0 ∧
      (∀ i, i < n →
        minimaxT clockOne 10 i gA true (ts i) = .ok (minimax i gA true, ts (i + 1))) ∧
      (n = sysMaxsize ∨ ∃ e, minimaxT clockOne 10 n gA true (ts n) = .error e) ∧
      get_move ⟨3, true, "minimax", 10⟩ gA [(0, 0)] clockOne
        = (if n = 0 then none else (minimax (n - 1) gA true).2)) ∧
    (∃ n, n ≤ sysMaxsize ∧ ∃ ts : ℕ → ℕ, ts 0 = 0 ∧
      (∀ i, i < n →
        alphabetaT clockOne 10 i gA ⊥ ⊤ true (ts i) = .ok (alphabeta i gA ⊥ ⊤ true, ts (i + 1))) ∧
      (n = sysMaxsize ∨ ∃ e, alphabetaT clockOne 10 n gA ⊥ ⊤ true (ts n) = .error e) ∧
      get_move ⟨3, true, "alphabeta", 10⟩ gA [(0, 0)] clockOne
        = (if n = 0 then none else (alphabeta (n - 1) gA ⊥ ⊤ true).2)) :=
  get_move_iterative_deepening_characterization 3 10 clockOne gA [(0, 0)]
    (List.cons_ne_nil _ _)

/-- C3 (amended): in `minimax` the initial best is `(-inf, None)` when
maximizing and `(+inf, None)` when minimizing — not the first enumerated
move — and the best pair is replaced exactly on strict improvement.  Hence
the returned score is the fold of `max` (resp. `min`) over the children, a
node all of whose children score `-inf` (resp. `+inf`) returns move `None`,
and otherwise the returned move is the earliest-enumerated move attaining the
returned score, every earlier move scoring strictly worse (ties keep the
earliest-enumerated move).  At the root window `alphabeta` returns the same
(score, move) pair as `minimax`, so the same discipline holds there. -/
theorem move_selection_tie_discipline :
    (∀ (d : ℕ) (g : GameState), g.succ ≠ [] →
      ((minimax (d + 1) g true).1
          = g.succ.foldl (fun a p => max a ((minimax d p.2 false).1)) ⊥) ∧
      ((minimax (d + 1) g true).1 = ⊥ → (minimax (d + 1) g true).2 = none) ∧
      (⊥ < (minimax (d + 1) g true).1 →
        ∃ i, ∃ hi : i < g.succ.length,
          (minimax (d + 1) g true).2 = some (g.succ.get ⟨i, hi⟩).1 ∧
          (minimax d (g.succ.get ⟨i, hi⟩).2 false).1 = (minimax (d + 1) g true).1 ∧
          ∀ j, ∀ hj : j < g.succ.length, j < i →
            (minimax d (g.succ.get ⟨j, hj⟩).2 false).1 < (minimax (d + 1) g true).1)) ∧
    (∀ (d : ℕ) (g : GameState), g.succ ≠ [] →
      ((minimax (d + 1) g false).1
          = g.succ.foldl (fun a p => min a ((minimax d p.2 true).1)) ⊤) ∧
      ((minimax (d + 1) g false).1 = ⊤ → (minimax (d + 1) g false).2 = none) ∧
      ((minimax (d + 1) g false).1 < ⊤ →
        ∃ i, ∃ hi : i < g.succ.length,
          (minimax (d + 1) g false).2 = some (g.succ.get ⟨i, hi⟩).1 ∧
          (minimax d (g.succ.get ⟨i, hi⟩).2 true).1 = (minimax (d + 1) g false).1 ∧
          ∀ j, ∀ hj : j < g.succ.length, j < i →
            (minimax (d + 1) g false).1 < (minimax d (g.succ.get ⟨j, hj⟩).2 true).1)) ∧
    (∀ (d : ℕ) (g : GameState) (mx : Bool), alphabeta d g ⊥ ⊤ mx = minimax d g mx) := by
  refine ⟨?_, ?_, alphabeta_root_eq⟩
  · intro d g h
    rw [minimax_succ_max d g h]
    refine ⟨mmMaxLoop_fst _ g.succ ⊥ none, ?_, mmMaxLoop_attain _ g.succ ⊥ none⟩
    intro h0
    have hle : g.succ.foldl (fun a p => max a ((minimax d p.2 false).1)) ⊥ ≤ ⊥ := by
      rw [← mmMaxLoop_fst (fun s => (minimax d s false).1) g.succ ⊥ none, h0]
    have hall : ∀ p ∈ g.succ, (minimax d p.2 false).1 ≤ ⊥ :=
      ((foldl_max_le_iff (fun s => (minimax d s false).1) ⊥ g.succ ⊥).mp hle).2
    rw [mmMaxLoop_of_forall_le _ g.succ ⊥ none hall]
  · intro d g h
    rw [minimax_succ_min d g h]
    refine ⟨mmMinLoop_fst _ g.succ ⊤ none, ?_, mmMinLoop_attain _ g.succ ⊤ none⟩
    intro h0
    have hle : (⊤ : Score) ≤ g.succ.foldl (fun a p => min a ((minimax d p.2 true).1)) ⊤ := by
      rw [← mmMinLoop_fst (fun s => (minimax d s true).1) g.succ ⊤ none, h0]
    have hall : ∀ p ∈ g.succ, (⊤ : Score) ≤ (minimax d p.2 true).1 :=
      ((le_foldl_min_iff (fun s => (minimax d s true).1) ⊤ g.succ ⊤).mp hle).2
    rw [mmMinLoop_of_forall_le _ g.succ ⊤ none hall]

/-- Counterexample to C3 as stated: on `gLoss` (two legal moves, both leading
to terminal losses) the depth-1 maximizing search returns move `None` — the
first enumerated move `(0, 0)` never became the best move, because the
initial best is `(-inf, None)` and the strict `>` comparison never fires when
every child scores `-inf`. -/
theorem move_selection_tie_discipline_cex :
    minimax 1 gLoss true = (⊥, none) ∧ gLoss.get_legal_moves = [(0, 0), (1, 1)] ∧
    (minimax 1 gLoss true).2 ≠ some ((0, 0) : Move) :=
  ⟨by decide, by decide, by decide⟩

/-- Witness for C3 (amended) on `gW`, whose two successors tie at score 1:
the earliest-enumerated move `(0, 0)` is kept. -/
theorem move_selection_tie_discipline_witness :
    minimax 1 gW true = (Score.fin 1, some (0, 0)) ∧
    (minimax 1 gW true).1 = gW.succ.foldl (fun a p => max a ((minimax 0 p.2 false).1)) ⊥ :=
  ⟨by decide, (move_selection_tie_discipline.1 0 gW (List.cons_ne_nil _ _)).1⟩

/-- C6 (amended): for a non-terminal state with equal legal-move counts, the
positional-tiebreak evaluator returns the finite score
`(opponent center distance - own center distance) / 10`; on the project's 7x7
board, with both players located on the board, the two Manhattan distances
lie in `[0, 6]`, so the returned magnitude is at most `6/10`, strictly less
than 1.  (On larger boards the distance difference can reach 10 or more and
the magnitude can reach or exceed 1 — see the counterexample.) -/
theorem heuristic3_tiebreak_bounded :
    ∀ (game : Board) (player : PlayerId),
      game.height = 7 → game.width = 7 →
      game.is_winner player = false → game.is_loser player = false →
      (game.get_legal_moves player).length
        = (game.get_legal_moves player.get_opponent).length →
      0 ≤ (game.get_player_location player).1 → (game.get_player_location player).1 < 7 →
      0 ≤ (game.get_player_location player).2 → (game.get_player_location player).2 < 7 →
      0 ≤ (game.get_player_location player.get_opponent).1 →
      (game.get_player_location player.get_opponent).1 < 7 →
      0 ≤ (game.get_player_location player.get_opponent).2 →
      (game.get_player_location player.get_opponent).2 < 7 →
      ∃ q : ℚ, heuristic3 game player = Score.fin q ∧ |q| < 1 := by
  intro game player hh hw hwin hlos hcnt hp1 hp2 hp3 hp4 ho1 ho2 ho3 ho4
  have h72 : (7 : ℤ) / 2 = 3 := by decide
  refine ⟨((|(game.get_player_location player.get_opponent).1 - 3| +
      |(game.get_player_location player.get_opponent).2 - 3| -
      (|(game.get_player_location player).1 - 3| +
       |(game.get_player_location player).2 - 3|) : Int) : ℚ) / 10, ?_, ?_⟩
  · simp only [heuristic3, hwin, hlos, Bool.false_eq_true, if_false, hcnt, ne_eq,
      not_true_eq_false, hh, hw, h72]
  · have b1 : |(game.get_player_location player).1 - 3| ≤ 3 := abs_le.mpr ⟨by omega, by omega⟩
    have b2 : |(game.get_player_location player).2 - 3| ≤ 3 := abs_le.mpr ⟨by omega, by omega⟩
    have b3 : |(game.get_player_location player.get_opponent).1 - 3| ≤ 3 :=
      abs_le.mpr ⟨by omega, by omega⟩
    have b4 : |(game.get_player_location player.get_opponent).2 - 3| ≤ 3 :=
      abs_le.mpr ⟨by omega, by omega⟩
    have n1 : (0 : ℤ) ≤ |(game.get_player_location player).1 - 3| := abs_nonneg _
    have n2 : (0 : ℤ) ≤ |(game.get_player_location player).2 - 3| := abs_nonneg _
    have n3 : (0 : ℤ) ≤ |(game.get_player_location player.get_opponent).1 - 3| := abs_nonneg _
    have n4 : (0 : ℤ) ≤ |(game.get_player_location player.get_opponent).2 - 3| := abs_nonneg _
    have hdiff : |(|(game.get_player_location player.get_opponent).1 - 3| +
        |(game.get_player_location player.get_opponent).2 - 3| -
        (|(game.get_player_location player).1 - 3| +
         |(game.get_player_location player).2 - 3|) : Int)| ≤ 6 :=
      abs_le.mpr ⟨by linarith, by linarith⟩
    rw [abs_div]
    have h10 : |(10 : ℚ)| = 10 := by norm_num
    rw [h10, div_lt_one (by norm_num : (0 : ℚ) < 10)]
    have hc : |((|(game.get_player_location player.get_opponent).1 - 3| +
        |(game.get_player_location player.get_opponent).2 - 3| -
        (|(game.get_player_location player).1 - 3| +
         |(game.get_player_location player).2 - 3|) : Int) : ℚ)| ≤ 6 := by
      rw [← Int.cast_abs]
      exact_mod_cast hdiff
    linarith

/-- Counterexample to C6 as stated: on a 25x25 board (allowed by the Board
interface the evaluators consume), a non-terminal state with equal move
counts and center distances 24 and 0 makes `heuristic3` return `-12/5`,
whose magnitude exceeds 1. -/
theorem heuristic3_tiebreak_bounded_cex :
    heuristic3 bC6 PlayerId.one = Score.fin (-(12 / 5 : ℚ)) ∧ ¬ |(-(12 / 5 : ℚ))| < 1 := by
  constructor
  · norm_num [heuristic3, bC6, PlayerId.get_opponent, Score.fin]
  · rw [abs_neg, abs_of_nonneg (by norm_num : (0 : ℚ) ≤ 12 / 5)]
    norm_num

/-- Witness for C6 (amended) on the concrete 7x7 board `bC6W`. -/
theorem heuristic3_tiebreak_bounded_witness :
    ∃ q : ℚ, heuristic3 bC6W PlayerId.one = Score.fin q ∧ |q| < 1 :=
  heuristic3_tiebreak_bounded bC6W PlayerId.one rfl rfl rfl rfl rfl
    (by decide) (by decide) (by decide) (by decide)
    (by decide) (by decide) (by decide) (by decide)
